import Mathlib

/-!
Verification of the masked-model-wrapper core of the `gpeopleapiwrapper`
repository (files `gpeopleapiwrapper/base.py` and `gpeopleapiwrapper/persons.py`).

Documents returned by the Google People API are nested dictionaries.  We embed
them as association lists over an inductive `Value` type (strings, integers,
lists, nested dictionaries).  Python dictionaries preserve insertion order;
writing an existing key replaces its value in place and writing a new key
appends it at the end, which is exactly what `dSet` below does, so list
equality of association lists coincides with Python dictionary equality along
every state reachable by the wrapper operations.
-/

/-- Embedding of the JSON-like values stored in the model dictionaries. -/
inductive Value where
  | vstr : String → Value
  | vint : Int → Value
  | vlist : List Value → Value
  | vdict : List (String × Value) → Value

mutual

/-- Structural (Python `==`) equality test on values, mutually recursive with
its pointwise extension to lists and dictionaries. -/
def Value.beq : Value → Value → Bool
  | .vstr a, .vstr b => a == b
  | .vint a, .vint b => a == b
  | .vlist a, .vlist b => Value.beqList a b
  | .vdict a, .vdict b => Value.beqDict a b
  | _, _ => false

/-- Pointwise `Value.beq` on lists of values. -/
def Value.beqList : List Value → List Value → Bool
  | [], [] => true
  | a :: as, b :: bs => Value.beq a b && Value.beqList as bs
  | _, _ => false

/-- Pointwise `Value.beq` on dictionaries (keyed value lists). -/
def Value.beqDict : List (String × Value) → List (String × Value) → Bool
  | [], [] => true
  | (k, a) :: as, (l, b) :: bs => k == l && Value.beq a b && Value.beqDict as bs
  | _, _ => false

end

mutual

theorem Value.eq_of_beq : ∀ (a b : Value), Value.beq a b = true → a = b
  | .vstr a, .vstr b, h => by
    simp only [Value.beq, beq_iff_eq] at h; rw [h]
  | .vint a, .vint b, h => by
    simp only [Value.beq, beq_iff_eq] at h; rw [h]
  | .vlist a, .vlist b, h => by
    rw [Value.eqList_of_beqList a b h]
  | .vdict a, .vdict b, h => by
    rw [Value.eqDict_of_beqDict a b h]

theorem Value.eqList_of_beqList : ∀ (a b : List Value), Value.beqList a b = true → a = b
  | [], [], _ => rfl
  | x :: xs, y :: ys, h => by
    simp only [Value.beqList, Bool.and_eq_true] at h
    rw [Value.eq_of_beq x y h.1, Value.eqList_of_beqList xs ys h.2]

theorem Value.eqDict_of_beqDict :
    ∀ (a b : List (String × Value)), Value.beqDict a b = true → a = b
  | [], [], _ => rfl
  | (k, x) :: xs, (l, y) :: ys, h => by
    simp only [Value.beqDict, Bool.and_eq_true, beq_iff_eq] at h
    rw [h.1.1, Value.eq_of_beq x y h.1.2, Value.eqDict_of_beqDict xs ys h.2]

end

mutual

theorem Value.beq_refl : ∀ a : Value, Value.beq a a = true
  | .vstr a => by simp [Value.beq]
  | .vint a => by simp [Value.beq]
  | .vlist a => by simp only [Value.beq]; exact Value.beqList_refl a
  | .vdict a => by simp only [Value.beq]; exact Value.beqDict_refl a

theorem Value.beqList_refl : ∀ a : List Value, Value.beqList a a = true
  | [] => rfl
  | x :: xs => by
    simp only [Value.beqList, Bool.and_eq_true]
    exact ⟨Value.beq_refl x, Value.beqList_refl xs⟩

theorem Value.beqDict_refl : ∀ a : List (String × Value), Value.beqDict a a = true
  | [] => rfl
  | (k, x) :: xs => by
    simp only [Value.beqDict, Bool.and_eq_true]
    exact ⟨⟨by simp, Value.beq_refl x⟩, Value.beqDict_refl xs⟩

end

instance : DecidableEq Value := fun a b =>
  if h : Value.beq a b = true then .isTrue (Value.eq_of_beq a b h)
  else .isFalse (fun he => h (he ▸ Value.beq_refl a))

/-- A model document: a Python dictionary from string keys to values. -/
abbrev Doc := List (String × Value)

/-- Python `d.get(key, None)` on a dictionary. -/
def dGet (d : Doc) (k : String) : Option Value :=
  match d with
  | [] => none
  | (k', v) :: t => if k' = k then some v else dGet t k

/-- Python `d[key] = v`: replaces the value of an existing key in place
(preserving insertion order) or appends a fresh key at the end. -/
def dSet (d : Doc) (k : String) (v : Value) : Doc :=
  match d with
  | [] => [(k, v)]
  | (k', v') :: t => if k' = k then (k, v) :: t else (k', v') :: dSet t k v

theorem dGet_dSet_self (d : Doc) (k : String) (v : Value) :
    dGet (dSet d k v) k = some v := by
  induction d with
  | nil => simp [dGet, dSet]
  | cons p t ih =>
    obtain ⟨k', v'⟩ := p
    by_cases h : k' = k <;> simp [dGet, dSet, h, ih]

theorem dGet_dSet_ne (d : Doc) (k k' : String) (v : Value) (h : k ≠ k') :
    dGet (dSet d k v) k' = dGet d k' := by
  induction d with
  | nil => simp [dGet, dSet, h]
  | cons p t ih =>
    obtain ⟨k0, v0⟩ := p
    by_cases h0 : k0 = k
    · subst h0
      simp [dGet, dSet, h]
    · simp only [dSet, if_neg h0, dGet]
      by_cases h1 : k0 = k' <;> simp [h1, ih]

/-!
## The field-mask model (`base.py`)

`PersonField` embeds the `PersonField` enumeration of `persons.py` (only the
implemented, non-commented fields).  `ModelWrapper` embeds the state of
`base.ModelWrapper`: the working document, the pristine original and the field
mask.  Python's mutation of the private `__model` dictionary is embedded as
explicit state passing: every mutating operation takes a wrapper and returns
the updated wrapper inside `Except Err`, where `Err` embeds the exceptions the
code can raise.
-/

/-- Embedding of the `PersonField` enumeration (implemented fields only). -/
inductive PersonField where
  | addresses
  | birthdays
  | email_addresses
  | events
  | names
  | phone_numbers
deriving DecidableEq

/-- The wire key of a field (the `value` of the Python enum member). -/
def PersonField.value : PersonField → String
  | .addresses => "addresses"
  | .birthdays => "birthdays"
  | .email_addresses => "emailAddresses"
  | .events => "events"
  | .names => "names"
  | .phone_numbers => "phoneNumbers"

/-- Embedding of the exceptions raised by the wrapped code:
`FieldNotInMaskError`, `ValueError`, `IndexError`, and a Python
`AttributeError`/`TypeError`-style failure for operations applied to values of
an unexpected shape. -/
inductive Err where
  | fieldNotInMask (field : PersonField)
  | valueError (msg : String)
  | indexError (msg : String)
  | typeError (msg : String)
deriving DecidableEq

/-- State of `base.ModelWrapper`: working model, pristine original model and
the field mask. -/
structure ModelWrapper where
  model : Doc
  originalModel : Doc
  fieldMask : List PersonField
deriving DecidableEq

/-- `ModelWrapper.__init__`: both the working model and the pristine original
are deep copies of the input document (at the level of pure document values a
deep copy is the document itself; the aliasing content of `deepcopy` is
verified separately in the heap model at the end of this file). -/
def mkWrapper (model : Doc) (field_mask : List PersonField) : ModelWrapper :=
  { model := model, originalModel := model, fieldMask := field_mask }

/-- `ModelWrapper._model_field`: raises `FieldNotInMaskError` when the field is
not in the mask, otherwise returns `self.__model.get(field.value, None)`. -/
def modelField (w : ModelWrapper) (field : PersonField) : Except Err (Option Value) :=
  if field ∈ w.fieldMask then .ok (dGet w.model field.value)
  else .error (.fieldNotInMask field)

/-- The immediate (callback-creation-time) part of
`ModelWrapper._creation_callback`: the mask membership check, which raises
`FieldNotInMaskError` before any callback is handed out. -/
def creationCallbackCheck (w : ModelWrapper) (field : PersonField) : Except Err Unit :=
  if field ∈ w.fieldMask then .ok ()
  else .error (.fieldNotInMask field)

/-- The deferred part of `ModelWrapper._creation_callback`: invoking the
returned closure.  If the key is absent from the working model it is created
with `creation_value`; the value now stored under the key is returned together
with the updated wrapper state. -/
def invokeCreationCallback (w : ModelWrapper) (field : PersonField) (creation_value : Value) :
    ModelWrapper × Value :=
  match dGet w.model field.value with
  | some v => (w, v)
  | none =>
      ({ w with model := dSet w.model field.value creation_value }, creation_value)

/-- `ModelWrapper.model_copy`: a deep copy of the working model (the identity
at the level of pure document values). -/
def modelCopy (w : ModelWrapper) : Doc :=
  w.model

/-- `ModelWrapper.has_changes`: structural inequality between the working model
and the pristine original. -/
def hasChanges (w : ModelWrapper) : Bool :=
  decide (w.model ≠ w.originalModel)

/-!
## The list-attribute projection (`persons.BaseListWrapper`)

A `BaseListWrapper` holds a reference to the list stored under its field's key
in the person model (or `None` when the key is absent) plus the creation
callback.  All its mutations write through to the owning `ModelWrapper`'s
model, so we embed each public operation as a function from the wrapper state
(plus the field the projection is scoped to) to an updated wrapper state.
The projections are created by the `PersonWrapper` facade properties, which
evaluate `_model_field` and `_creation_callback` — both mask checks — before
any operation runs.
-/

/-- Python truthiness (`not part`) of the optional attribute value: `None`,
empty lists, empty dictionaries, empty strings and zero are falsy. -/
def falsy : Option Value → Bool
  | none => true
  | some (.vlist []) => true
  | some (.vdict []) => true
  | some (.vstr "") => true
  | some (.vint 0) => true
  | _ => false

/-- Python `lst.append(item)` on a value: only sequences support `append`; on
any other shape the attempt fails (embedded as a `typeError`). -/
def vpush : Value → Value → Except Err Value
  | .vlist xs, item => .ok (.vlist (xs ++ [item]))
  | _, _ => .error (.typeError "append on non-list attribute value")

/-- `BaseListWrapper._append_to_model` as reached through a facade property
(`PersonWrapper.addresses`, …): the facade first evaluates `_model_field` and
`_creation_callback` (both raise `FieldNotInMaskError` for unmasked fields);
`_append_to_model` then invokes the creation callback when the current
attribute value is falsy (absent or empty) and appends the new item to the
list, which writes through to the owning model. -/
def appendToModel (w : ModelWrapper) (field : PersonField) (new_item : Value) :
    Except Err ModelWrapper :=
  match modelField w field, creationCallbackCheck w field with
  | .error e, _ => .error e
  | .ok _, .error e => .error e
  | .ok part, .ok _ =>
    if falsy part then
      let wl := invokeCreationCallback w field (.vlist [])
      match vpush wl.2 new_item with
      | .error e => .error e
      | .ok nl => .ok { wl.1 with model := dSet wl.1.model field.value nl }
    else
      match part with
      | some lst =>
          match vpush lst new_item with
          | .error e => .error e
          | .ok nl => .ok { w with model := dSet w.model field.value nl }
      | none => .error (.typeError "unreachable: None is falsy")

/-- `BaseListWrapper.all()` as reached through a facade property: the item
documents of the backing list, in order; a falsy attribute value (absent or
empty) yields no items.  Iterating a truthy non-list value is outside the
modelled input space and embedded as a `typeError`. -/
def allItems (w : ModelWrapper) (field : PersonField) : Except Err (List Value) :=
  match modelField w field with
  | .error e => .error e
  | .ok part =>
    if falsy part then .ok []
    else
      match part with
      | some (.vlist xs) => .ok xs
      | _ => .error (.typeError "iteration over non-list attribute value")

/-- A sub-field write through an item view obtained from the projection
(e.g. `AddressWrapper.city = v`): writes `key` on the `idx`-th item document of
the field's backing list, in place.  The item view exists only for a real
element, so any other shape is an error. -/
def setItemField (w : ModelWrapper) (field : PersonField) (idx : Nat) (key : String)
    (v : Value) : Except Err ModelWrapper :=
  match modelField w field, creationCallbackCheck w field with
  | .error e, _ => .error e
  | .ok _, .error e => .error e
  | .ok part, .ok _ =>
    match part with
    | some (.vlist xs) =>
        match xs.get? idx with
        | some (.vdict d) =>
            .ok { w with
                  model := dSet w.model field.value (.vlist (xs.set idx (.vdict (dSet d key v)))) }
        | _ => .error (.indexError "no item view at this index")
    | _ => .error (.indexError "no item view on an absent attribute")

/-- Reading a sub-field through an item view (the mixin getters read
`self._model_part.get(key, default)`; this returns the raw optional value
before the default is applied). -/
def getItemField (w : ModelWrapper) (field : PersonField) (idx : Nat) (key : String) :
    Except Err (Option Value) :=
  match modelField w field with
  | .error e => .error e
  | .ok part =>
    match part with
    | some (.vlist xs) =>
        match xs.get? idx with
        | some (.vdict d) => .ok (dGet d key)
        | _ => .error (.indexError "no item view at this index")
    | _ => .error (.indexError "no item view on an absent attribute")

/-!
## The removal policy engine (`persons.RemoveStrategy`, `BaseListWrapper._remove`)

`RemoveCriterion.suggest_removal` is a method returning a boolean, so a
criterion is embedded abstractly as a boolean predicate on items.  The three
`RemoveStrategy` implementations are embedded as an inductive with the
`remove_from` dispatch.  `_remove_by_index` sorts the indices in reverse order
(Python `sorted(to_remove, reverse=True)`, embedded as an insertion sort,
which agrees with any descending sort on natural numbers) and deletes one
index at a time, checking each index against the current length.
-/

/-- The three concrete `RemoveStrategy` subclasses. -/
inductive RemoveStrategy where
  | removeAllSuggested
  | removeFirstSuggested
  | removeSuggestedExceptFirst
deriving DecidableEq

/-- `RemoveStrategy.remove_from` of each subclass.  Each implementation guards
on Python truthiness of the suggestion list (empty lists are falsy). -/
def remove_from (strategy : RemoveStrategy) (remove_suggestion : List Nat) : List Nat :=
  match strategy with
  | .removeAllSuggested => if remove_suggestion.isEmpty then [] else remove_suggestion
  | .removeFirstSuggested =>
      if remove_suggestion.isEmpty then [] else remove_suggestion.take 1
  | .removeSuggestedExceptFirst =>
      if remove_suggestion.isEmpty then [] else remove_suggestion.drop 1

/-- Insert a number into a descending-sorted list (helper of `sortDescending`). -/
def insertDesc (i : Nat) : List Nat → List Nat
  | [] => [i]
  | j :: t => if j ≤ i then i :: j :: t else j :: insertDesc i t

/-- Python `sorted(l, reverse=True)` on natural numbers. -/
def sortDescending (l : List Nat) : List Nat :=
  l.foldr insertDesc []

/-- The deletion loop of `BaseListWrapper._remove_by_index` over an
already-sorted index list: `del lst[index]` for each index, after checking the
index against the current length (`IndexError` otherwise). -/
def deleteLoop : List α → List Nat → Except Err (List α)
  | cur, [] => .ok cur
  | cur, index :: rest =>
      if cur.length ≤ index then .error (.indexError "index too large on delete")
      else deleteLoop (cur.eraseIdx index) rest

/-- `BaseListWrapper._remove_by_index`: sort descending, then delete. -/
def remove_by_index (l : List α) (to_remove : List Nat) : Except Err (List α) :=
  deleteLoop l (sortDescending to_remove)

/-- The removal suggestion of `BaseListWrapper._remove`: the indices of the
enumerated items on which the criterion suggests removal. -/
def suggestRemoval (p : α → Bool) (l : List α) : List Nat :=
  (l.enum.filter (fun ix => p ix.2)).map Prod.fst

/-- `BaseListWrapper._remove` for a criterion embedded as the boolean predicate
`p`: compute the suggestion, narrow it by the strategy, check the defensive
subset invariant (`set(to_remove).issubset(set(remove_suggestion))`) and
delete by index. -/
def removeMatching (p : α → Bool) (strategy : RemoveStrategy) (l : List α) :
    Except Err (List α) :=
  let remove_suggestion := suggestRemoval p l
  let to_remove := remove_from strategy remove_suggestion
  if to_remove.all (· ∈ remove_suggestion) then remove_by_index l to_remove
  else .error (.indexError "Removal of items with other values requested")

/-!
## `persons.DateValue`

A partially specified calendar date.  The private `__year`/`__month`/`__day`
attributes are embedded as optional integers; the checked constructor returns
`Except` because out-of-range components raise `ValueError`.  Python
truthiness of the optional components (`if self.__year`) distinguishes `None`
and zero from any other integer.
-/

/-- The component state of a `DateValue`. -/
structure DateValue where
  year : Option Int
  month : Option Int
  day : Option Int
deriving DecidableEq

/-- `DateValue.__check_year_range`. -/
def checkYearRange (year : Option Int) : Except Err (Option Int) :=
  match year with
  | some y => if y ≤ 0 then .error (.valueError "Year must be greater than 0") else .ok (some y)
  | none => .ok none

/-- `DateValue.__check_month_range`. -/
def checkMonthRange (month : Option Int) : Except Err (Option Int) :=
  match month with
  | some m =>
      if m < 1 ∨ 12 < m then .error (.valueError "Month must be between 1 and 12")
      else .ok (some m)
  | none => .ok none

/-- `DateValue.__check_day_range`. -/
def checkDayRange (day : Option Int) : Except Err (Option Int) :=
  match day with
  | some d =>
      if d < 1 ∨ 31 < d then .error (.valueError "Day must be between 1 and 31")
      else .ok (some d)
  | none => .ok none

/-- `DateValue.__init__`: validate each component. -/
def DateValue.make (year month day : Option Int) : Except Err DateValue := do
  let y ← checkYearRange year
  let m ← checkMonthRange month
  let d ← checkDayRange day
  .ok { year := y, month := m, day := d }

/-- Python truthiness of an optional integer component. -/
def intTruthy : Option Int → Bool
  | none => false
  | some n => n != 0

/-- `x if x else 0`: the wire encoding of one component. -/
def sentinelValue : Option Int → Int
  | some n => if n = 0 then 0 else n
  | none => 0

/-- `DateValue.google_value`: the wire dictionary with absent components
encoded as the sentinel `0`. -/
def google_value (v : DateValue) : List (String × Int) :=
  [("year", sentinelValue v.year), ("month", sentinelValue v.month),
   ("day", sentinelValue v.day)]

/-- `dict.get(key, None)` on an integer-valued wire dictionary. -/
def gdictGet (d : List (String × Int)) (k : String) : Option Int :=
  match d with
  | [] => none
  | (k', v) :: t => if k' = k then some v else gdictGet t k

/-- `DateValue.from_google`: read each component, map non-positive values to
absent, then construct (re-validating). -/
def from_google (google_date : List (String × Int)) : Except Err DateValue :=
  let year :=
    match gdictGet google_date "year" with
    | some y => if y ≤ 0 then none else some y
    | none => none
  let month :=
    match gdictGet google_date "month" with
    | some m => if m ≤ 0 then none else some m
    | none => none
  let day :=
    match gdictGet google_date "day" with
    | some d => if d ≤ 0 then none else some d
    | none => none
  DateValue.make year month day

/-- The four callbacks of `DateValueVisitor`, with the arguments each one
receives from `visit_value`. -/
inductive VisitCall where
  | visitFullDate (year month day : Int)
  | visitWithoutDay (year month : Int)
  | visitWithoutYear (month day : Int)
  | visitYearOnly (year : Int)
deriving DecidableEq

/-- Gregorian leap-year test, as used by `datetime.date`. -/
def isLeapYear (y : Int) : Bool :=
  y % 4 == 0 && (y % 100 != 0 || y % 400 == 0)

/-- The number of days of a month in the proleptic Gregorian calendar of
`datetime.date`. -/
def daysInMonth (y m : Int) : Int :=
  if m == 2 then (if isLeapYear y then 29 else 28)
  else if m == 4 || m == 6 || m == 9 || m == 11 then 30
  else 31

/-- Embedding of the argument validation of `datetime.date(year, month, day)`
(`MINYEAR = 1 ≤ year ≤ MAXYEAR = 9999`, `1 ≤ month ≤ 12`,
`1 ≤ day ≤ days_in_month(year, month)`); a violation raises `ValueError` and
otherwise the date object carries the validated triple. -/
def datetime_date (year month day : Int) : Except Err (Int × Int × Int) :=
  if year < 1 ∨ 9999 < year then .error (.valueError "year is out of range")
  else if month < 1 ∨ 12 < month then .error (.valueError "month must be in 1..12")
  else if day < 1 ∨ daysInMonth year month < day then
    .error (.valueError "day is out of range for month")
  else .ok (year, month, day)

/-- `DateValue.visit_value`: the `if`/`elif` dispatch on component truthiness.
The first branch constructs `date(self.__year, self.__month, self.__day)`
before invoking `visit_full_date`, so a calendar-invalid triple raises
`ValueError` there and no callback is invoked.  The result records which
visitor callback is invoked with which arguments (`none` when the chain falls
through and no callback is invoked). -/
def visit_value (v : DateValue) : Except Err (Option VisitCall) :=
  if intTruthy v.year && intTruthy v.month && intTruthy v.day then
    match datetime_date (v.year.getD 0) (v.month.getD 0) (v.day.getD 0) with
    | .error e => .error e
    | .ok _ => .ok (some (.visitFullDate (v.year.getD 0) (v.month.getD 0) (v.day.getD 0)))
  else if intTruthy v.year && intTruthy v.month then
    .ok (some (.visitWithoutDay (v.year.getD 0) (v.month.getD 0)))
  else if intTruthy v.month && intTruthy v.day then
    .ok (some (.visitWithoutYear (v.month.getD 0) (v.day.getD 0)))
  else if intTruthy v.year then
    .ok (some (.visitYearOnly (v.year.getD 0)))
  else
    .ok none

/-- Reference classification for the amended claim C8: what actually happens
for each presence pattern of the components.  A full-presence value invokes
`visit_full_date` only when the triple is a valid calendar date, and raises
`ValueError` otherwise; `visit_year_only` fires whenever the year is set and
the month is not, regardless of the day; month-only, day-only and empty
values invoke no callback. -/
def visitClassify (v : DateValue) : Except Err (Option VisitCall) :=
  match v.year, v.month, v.day with
  | some y, some m, some d => (datetime_date y m d).map (fun _ => some (.visitFullDate y m d))
  | some y, some m, none => .ok (some (.visitWithoutDay y m))
  | none, some m, some d => .ok (some (.visitWithoutYear m d))
  | some y, none, _ => .ok (some (.visitYearOnly y))
  | none, _, _ => .ok none

/-!
## Typed attribute mixins (`persons.TypeMixin`, `StringValueMixin`,
`DateValueMixin`) and the type-list combinators

Item documents are dictionaries inside the `Value` universe.  The mixin
getters read a fixed key with a default.  The modelled input space stores
string tags/values as `Value.vstr` (the wire format of the API); keys holding
values of any other shape read as the default.
-/

/-- `TypeMixin.vtype`: `self._model_part.get("type", "")`. -/
def vtypeOf (item : Value) : String :=
  match item with
  | .vdict d =>
      match dGet d "type" with
      | some (.vstr s) => s
      | _ => ""
  | _ => ""

/-- `StringValueMixin.value`: `self._model_part.get("value", "")`. -/
def valueOf (item : Value) : String :=
  match item with
  | .vdict d =>
      match dGet d "value" with
      | some (.vstr s) => s
      | _ => ""
  | _ => ""

/-- `TypeListMixin.all_of_type`: the Python filter
`item and item.vtype and item.vtype == vtype` — the wrapper object is always
truthy, the tag string is truthy iff nonempty. -/
def all_of_type (vtype : String) (items : List Value) : List Value :=
  items.filter (fun item => (vtypeOf item != "") && (vtypeOf item == vtype))

/-- `TypeListMixin.first_of_type`: first filtered item or `None`. -/
def first_of_type (vtype : String) (items : List Value) : Option Value :=
  (all_of_type vtype items).head?

/-!
## Concrete criteria, the names attribute and the operation semantics

`RemoveByTypeCriterion`/`RemoveByStringValueCriterion` compare the mixin
getters against a stored parameter; `RemoveByDateValueCriterion` compares
`DateValueMixin.date_value` (which parses the stored wire dictionary through
`DateValue.from_google` and can therefore raise) with `DateValue.__eq__`
(structural equality on the three optional components, `False` against
`None`).
-/

/-- Read an optional integer entry of a date wire dictionary stored inside the
`Value` universe; a non-integer value under the key is outside the modelled
input space and embedded as a `typeError` (Python would fail on the subsequent
comparison). -/
def getIntEntry (d : List (String × Value)) (k : String) : Except Err (Option Int) :=
  match dGet d k with
  | none => .ok none
  | some (.vint n) => .ok (some n)
  | some _ => .error (.typeError "non-integer date component")

/-- `DateValue.from_google` applied to a date dictionary stored inside the
`Value` universe (as `DateValueMixin.date_value` does). -/
def from_google_value (d : List (String × Value)) : Except Err DateValue := do
  let y0 ← getIntEntry d "year"
  let year := match y0 with
    | some y => if y ≤ 0 then none else some y
    | none => none
  let m0 ← getIntEntry d "month"
  let month := match m0 with
    | some m => if m ≤ 0 then none else some m
    | none => none
  let d0 ← getIntEntry d "day"
  let day := match d0 with
    | some x => if x ≤ 0 then none else some x
    | none => none
  DateValue.make year month day

/-- `DateValueMixin.date_value`: `self._model_part.get("date", None)` parsed
through `from_google` when truthy, `None` otherwise. -/
def dateValueOf (item : Value) : Except Err (Option DateValue) :=
  match item with
  | .vdict d =>
      let gd := dGet d "date"
      if falsy gd then .ok none
      else
        match gd with
        | some (.vdict g) => (from_google_value g).map some
        | _ => .error (.typeError "date attribute is not a dictionary")
  | _ => .ok none

/-- The concrete `RemoveCriterion` subclasses, as parameter data. -/
inductive Crit where
  | removeAllCriterion
  | byStringValue (value : String)
  | byType (vtype : String)
  | byDateValue (date_value : DateValue)
deriving DecidableEq

/-- `RemoveCriterion.suggest_removal` of each concrete subclass. -/
def critEval (c : Crit) (item : Value) : Except Err Bool :=
  match c with
  | .removeAllCriterion => .ok true
  | .byStringValue s => .ok (valueOf item == s)
  | .byType s => .ok (vtypeOf item == s)
  | .byDateValue dv => do
      let o ← dateValueOf item
      .ok (match o with
           | none => false
           | some x => decide (x = dv))

/-- The suggestion list comprehension of `BaseListWrapper._remove` for a
concrete criterion: items are enumerated left to right and the first exception
raised by the criterion propagates. -/
def suggestCrit (c : Crit) : Nat → List Value → Except Err (List Nat)
  | _, [] => .ok []
  | i, item :: rest => do
      let b ← critEval c item
      let s ← suggestCrit c (i + 1) rest
      .ok (if b then i :: s else s)

/-- `BaseListWrapper._remove` as reached through a facade property, for a
concrete criterion.  When the attribute value is falsy (absent or empty),
`all()` yields nothing, the suggestion is empty and the deletion loop runs
over no indices, so the model is untouched — in particular an absent key is
not created.  Otherwise the strategy-narrowed index list is deleted from the
backing list, which writes through to the owning model. -/
def removeAttr (w : ModelWrapper) (field : PersonField) (c : Crit)
    (strategy : RemoveStrategy) : Except Err ModelWrapper :=
  match modelField w field, creationCallbackCheck w field with
  | .error e, _ => .error e
  | .ok _, .error e => .error e
  | .ok part, .ok _ =>
    if falsy part then .ok w
    else
      match part with
      | some (.vlist xs) =>
          match suggestCrit c 0 xs with
          | .error e => .error e
          | .ok remove_suggestion =>
            if (remove_from strategy remove_suggestion).all (· ∈ remove_suggestion) then
              match remove_by_index xs (remove_from strategy remove_suggestion) with
              | .error e => .error e
              | .ok xs' => .ok { w with model := dSet w.model field.value (.vlist xs') }
            else .error (.indexError "Removal of items with other values requested")
      | _ => .error (.typeError "iteration over non-list attribute value")

/-!
## The names attribute (`persons.NamesWrapper`)

The names attribute is list-shaped but constrained to at most one element:
`NamesWrapper._append_to_model` raises `ValueError` when an element already
exists.  The facade sub-field accessors operate on the sole element,
auto-creating it on first write.
-/

/-- `NamesWrapper.first()` as reached through the facade: the first item
document of the names list, or `None`. -/
def namesFirst (w : ModelWrapper) : Except Err (Option Value) :=
  (allItems w .names).map List.head?

/-- `NamesWrapper._append_to_model`: refuses a second name element with
`ValueError`, otherwise defers to `BaseListWrapper._append_to_model`. -/
def namesAppendToModel (w : ModelWrapper) (new_item : Value) : Except Err ModelWrapper :=
  match namesFirst w with
  | .error e => .error e
  | .ok (some _) =>
      .error (.valueError "Cannot append another name object, only one name item is allowed per person")
  | .ok none => appendToModel w .names new_item

/-- The `NamesWrapper.given_name` setter: writes through the existing sole
name element when there is one, otherwise appends a fresh single-key element. -/
def namesSetGivenName (w : ModelWrapper) (given_name : String) : Except Err ModelWrapper :=
  match modelField w .names, creationCallbackCheck w .names with
  | .error e, _ => .error e
  | .ok _, .error e => .error e
  | .ok _, .ok _ =>
    match namesFirst w with
    | .error e => .error e
    | .ok (some _) => setItemField w .names 0 "givenName" (.vstr given_name)
    | .ok none => namesAppendToModel w (.vdict [("givenName", .vstr given_name)])

/-- The `NamesWrapper.given_name` getter: `single_name.given_name` of the sole
element (default `""`), or `None` when no element exists. -/
def namesGetGivenName (w : ModelWrapper) : Except Err (Option String) :=
  match namesFirst w with
  | .error e => .error e
  | .ok (some item) =>
      .ok (some (match item with
                 | .vdict d =>
                     match dGet d "givenName" with
                     | some (.vstr s) => s
                     | _ => ""
                 | _ => ""))
  | .ok none => .ok none

/-!
## Operation words for the change-tracking and frame claims

`WOp` enumerates the mutating operations a caller can perform through the
wrapper; `applyOp` gives each its semantics; `runOps` runs a sequence,
continuing from the unchanged state when an operation raises (errors are
synchronous and leave the document as it was).
-/

/-- The mutating wrapper operations. -/
inductive WOp where
  | appendItem (field : PersonField) (item : Value)
  | removeMatchingOp (field : PersonField) (c : Crit) (strategy : RemoveStrategy)
  | setSubField (field : PersonField) (idx : Nat) (key : String) (v : Value)
  | setGivenName (given_name : String)

/-- Semantics of one operation.  Appending on the names attribute goes through
`NamesWrapper._append_to_model`; all other fields append directly. -/
def applyOp (w : ModelWrapper) : WOp → Except Err ModelWrapper
  | .appendItem field item =>
      match field with
      | .names => namesAppendToModel w item
      | _ => appendToModel w field item
  | .removeMatchingOp field c strategy => removeAttr w field c strategy
  | .setSubField field idx key v => setItemField w field idx key v
  | .setGivenName s => namesSetGivenName w s

/-- Run a sequence of operations; a raised exception propagates out of the
failing call leaving the document unchanged, so the caller continues from the
prior state. -/
def runOps (w : ModelWrapper) (ops : List WOp) : ModelWrapper :=
  ops.foldl (fun cur op =>
    match applyOp cur op with
    | .ok w' => w'
    | .error _ => cur) w

/-!
## Heap model of `deepcopy` in `ModelWrapper.__init__`

The claims about the pure document semantics above treat `deepcopy` as the
identity.  What `deepcopy` actually buys — the wrapper shares no mutable cell
with the caller's input dictionary — is a statement about aliasing, so we give
a second, heap-level embedding: `Nat` addresses, cells (`HVal`) holding
primitives or addresses of children, `denote` reading the pure `Value` tree of
an address (fuel-bounded), and `dcopy` embedding `copy.deepcopy` (children are
copied recursively into fresh addresses, then the composite cell is
allocated).  Input documents are trees, so `deepcopy`'s memoisation of shared
or cyclic substructure never fires and is not modelled. -/

/-- A heap cell: a primitive, or a composite holding addresses of children. -/
inductive HVal where
  | hstr : String → HVal
  | hint : Int → HVal
  | hlist : List Nat → HVal
  | hdict : List (String × Nat) → HVal
deriving DecidableEq

/-- A heap: address-to-cell bindings, newest first. -/
abbrev Heap := List (Nat × HVal)

/-- Look up the cell at an address. -/
def hget : Heap → Nat → Option HVal
  | [], _ => none
  | (a', c) :: t, a => if a' = a then some c else hget t a

/-- Store a cell at an address. -/
def hset (h : Heap) (a : Nat) (c : HVal) : Heap :=
  (a, c) :: h

/-- The child addresses a cell refers to. -/
def HVal.ptrs : HVal → List Nat
  | .hstr _ => []
  | .hint _ => []
  | .hlist as => as
  | .hdict kvs => kvs.map Prod.snd

mutual

/-- The pure `Value` tree denoted by an address (`none` on dangling addresses
or fuel exhaustion). -/
def denote : Nat → Heap → Nat → Option Value
  | 0, _, _ => none
  | fuel + 1, h, a =>
    match hget h a with
    | none => none
    | some (.hstr s) => some (.vstr s)
    | some (.hint n) => some (.vint n)
    | some (.hlist as) => (denoteList fuel h as).map Value.vlist
    | some (.hdict kvs) => (denoteDict fuel h kvs).map Value.vdict

/-- Denotations of a list of addresses. -/
def denoteList : Nat → Heap → List Nat → Option (List Value)
  | _, _, [] => some []
  | fuel, h, a :: as => do
      let v ← denote fuel h a
      let vs ← denoteList fuel h as
      pure (v :: vs)

/-- Denotations of the values of a keyed address list. -/
def denoteDict : Nat → Heap → List (String × Nat) → Option (List (String × Value))
  | _, _, [] => some []
  | fuel, h, (k, a) :: as => do
      let v ← denote fuel h a
      let vs ← denoteDict fuel h as
      pure ((k, v) :: vs)

end

mutual

/-- `copy.deepcopy` of the object at address `a`: fresh addresses are drawn
from `next` upwards; returns the extended heap, the new allocation frontier
and the address of the copy. -/
def dcopy : Nat → Heap → Nat → Nat → Option (Heap × Nat × Nat)
  | 0, _, _, _ => none
  | fuel + 1, h, next, a =>
    match hget h a with
    | none => none
    | some (.hstr s) => some (hset h next (.hstr s), next + 1, next)
    | some (.hint n) => some (hset h next (.hint n), next + 1, next)
    | some (.hlist as) =>
        match dcopyList fuel h next as with
        | none => none
        | some (h1, n1, rs) => some (hset h1 n1 (.hlist rs), n1 + 1, n1)
    | some (.hdict kvs) =>
        match dcopyDict fuel h next kvs with
        | none => none
        | some (h1, n1, rs) => some (hset h1 n1 (.hdict rs), n1 + 1, n1)

/-- Deep copies of a list of addresses, threading the heap. -/
def dcopyList : Nat → Heap → Nat → List Nat → Option (Heap × Nat × List Nat)
  | _, h, next, [] => some (h, next, [])
  | fuel, h, next, a :: as =>
      match dcopy fuel h next a with
      | none => none
      | some (h1, n1, r) =>
          match dcopyList fuel h1 n1 as with
          | none => none
          | some (h2, n2, rs) => some (h2, n2, r :: rs)

/-- Deep copies of the values of a keyed address list, threading the heap. -/
def dcopyDict : Nat → Heap → Nat → List (String × Nat) →
    Option (Heap × Nat × List (String × Nat))
  | _, h, next, [] => some (h, next, [])
  | fuel, h, next, (k, a) :: as =>
      match dcopy fuel h next a with
      | none => none
      | some (h1, n1, r) =>
          match dcopyDict fuel h1 n1 as with
          | none => none
          | some (h2, n2, rs) => some (h2, n2, (k, r) :: rs)

end

/-- `ModelWrapper.__init__` at the heap level: two independent deep copies of
the input document, one for the working model and one for the pristine
original. -/
def constructOnHeap (fuel : Nat) (h : Heap) (next a : Nat) :
    Option (Heap × Nat × Nat × Nat) :=
  match dcopy fuel h next a with
  | none => none
  | some (h1, n1, m) =>
      match dcopy fuel h1 n1 a with
      | none => none
      | some (h2, n2, o) => some (h2, n2, m, o)

/-- A heap is closed below `n`: every binding lives at an address `< n` and
refers only to addresses `< n`.  (Stated over the binding list so that it is
decidable for concrete heaps.) -/
def ClosedBelow (h : Heap) (n : Nat) : Prop :=
  ∀ p ∈ h, p.1 < n ∧ ∀ b ∈ HVal.ptrs p.2, b < n

instance (h : Heap) (n : Nat) : Decidable (ClosedBelow h n) := by
  unfold ClosedBelow; infer_instance

/-- The cells whose address satisfies `P` refer only to addresses satisfying
`P`. -/
def SegClosed (h : Heap) (P : Nat → Prop) : Prop :=
  ∀ a c, hget h a = some c → P a → ∀ b ∈ HVal.ptrs c, P b

/-!
## Helper lemmas on documents
-/

theorem dSet_of_dGet_eq (d : Doc) (k : String) (x : Value) (h : dGet d k = some x) :
    dSet d k x = d := by
  induction d with
  | nil => simp [dGet] at h
  | cons p t ih =>
    obtain ⟨k0, v0⟩ := p
    by_cases h0 : k0 = k
    · subst h0
      have h' : v0 = x := by simpa [dGet] using h
      simp [dSet, h']
    · simp only [dGet, if_neg h0] at h
      simp [dSet, h0, ih h]

theorem dSet_eq_self_iff (d : Doc) (k : String) (x : Value) :
    dSet d k x = d ↔ dGet d k = some x := by
  constructor
  · intro h
    have := dGet_dSet_self d k x
    rw [h] at this
    exact this
  · exact dSet_of_dGet_eq d k x

theorem list_set_of_get_eq (xs : List α) (i : Nat) (y : α) (h : xs.get? i = some y) :
    xs.set i y = xs := by
  induction xs generalizing i with
  | nil => simp at h
  | cons x t ih =>
    cases i with
    | zero => simp_all
    | succ n =>
      simp only [List.get?_cons_succ] at h
      simp [List.set, ih n h]

theorem list_set_eq_self_iff (xs : List α) (i : Nat) (y : α) (hi : i < xs.length) :
    xs.set i y = xs ↔ xs.get? i = some y := by
  constructor
  · intro h
    have := List.getElem?_set_eq_of_lt y (l := xs) (n := i) (by simpa using hi)
    rw [h] at this
    simpa [List.get?_eq_getElem?] using this
  · exact list_set_of_get_eq xs i y

/-!
## C1 — field-mask gating of reads and write capabilities
-/

/-- **C1**: for every wrapper state, every field mask, and every field:
reading through `ModelWrapper._model_field` and obtaining a write capability
through `ModelWrapper._creation_callback` both fail with
`FieldNotInMaskError` when the field is not in the mask — the mask check
precedes any access to the document, and in this pure embedding an error
produces no successor state, so the document is untouched; when the field is
in the mask but its key is absent from the document, the read returns the
explicit `none` marker instead of failing. -/
theorem c1_field_mask_gating (w : ModelWrapper) (field : PersonField) :
    (field ∉ w.fieldMask →
      modelField w field = .error (.fieldNotInMask field) ∧
      creationCallbackCheck w field = .error (.fieldNotInMask field)) ∧
    (field ∈ w.fieldMask → dGet w.model field.value = none →
      modelField w field = .ok none) := by
  constructor
  · intro h
    constructor
    · simp [modelField, h]
    · simp [creationCallbackCheck, h]
  · intro h habs
    simp [modelField, h, habs]

/-- A concrete wrapper whose mask requests only the names attribute and whose
document holds only the resource name. -/
def c1Wrapper : ModelWrapper :=
  mkWrapper [("resourceName", .vstr "people/c1")] [PersonField.names]

theorem dSet_dSet (d : Doc) (k : String) (x y : Value) :
    dSet (dSet d k x) k y = dSet d k y := by
  induction d with
  | nil => simp [dSet]
  | cons p t ih =>
    obtain ⟨k0, v0⟩ := p
    by_cases h0 : k0 = k
    · subst h0
      simp [dSet]
    · simp [dSet, h0, ih]

theorem modelField_ok_elim {w : ModelWrapper} {f : PersonField} {part : Option Value}
    (h : modelField w f = .ok part) :
    f ∈ w.fieldMask ∧ part = dGet w.model f.value := by
  unfold modelField at h
  by_cases hm : f ∈ w.fieldMask
  · simp only [if_pos hm, Except.ok.injEq] at h
    exact ⟨hm, h.symm⟩
  · simp [if_neg hm] at h

/-- Success-shape analysis of `appendToModel`: on success the field is in the
mask and the new model stores the old items plus the new one under the
field's key (the old items being `[]` when the key was absent or empty). -/
theorem appendToModel_ok_elim {w w' : ModelWrapper} {f : PersonField} {item : Value}
    (h : appendToModel w f item = .ok w') :
    f ∈ w.fieldMask ∧
    w'.originalModel = w.originalModel ∧ w'.fieldMask = w.fieldMask ∧
    ((dGet w.model f.value = none ∧
       w'.model = dSet w.model f.value (.vlist [item])) ∨
     (∃ xs, dGet w.model f.value = some (.vlist xs) ∧
       w'.model = dSet w.model f.value (.vlist (xs ++ [item])))) := by
  unfold appendToModel at h
  split at h
  · exact absurd h (by simp)
  · exact absurd h (by simp)
  next part _ hmf _ =>
    obtain ⟨hmem, hpart⟩ := modelField_ok_elim hmf
    split at h
    · rename_i hfalsy
      unfold invokeCreationCallback at h
      split at h
      · -- the key exists and holds a falsy value; `append` succeeds only on a list
        rename_i v hv
        have hval : falsy (some v) = true := by
          rw [← hv, ← hpart]
          exact hfalsy
        cases v with
        | vlist xs =>
          cases xs with
          | nil =>
            simp only [vpush, Except.ok.injEq] at h
            subst h
            exact ⟨hmem, rfl, rfl, Or.inr ⟨[], hv, by simp⟩⟩
          | cons y ys => simp [falsy] at hval
        | vstr s => simp [vpush] at h
        | vint n => simp [vpush] at h
        | vdict d => simp [vpush] at h
      · rename_i hv
        simp only [vpush, Except.ok.injEq] at h
        subst h
        exact ⟨hmem, rfl, rfl, Or.inl ⟨hv, by simp [dSet_dSet]⟩⟩
    · rename_i hfalsy
      split at h
      · rename_i _ lst
        cases lst with
        | vlist xs =>
          simp only [vpush, Except.ok.injEq] at h
          subst h
          exact ⟨hmem, rfl, rfl, Or.inr ⟨xs, hpart.symm, rfl⟩⟩
        | vstr s => simp [vpush] at h
        | vint n => simp [vpush] at h
        | vdict d => simp [vpush] at h
      · exact absurd h (by simp)

/-- Success-shape analysis of `setItemField`. -/
theorem setItemField_ok_elim {w w' : ModelWrapper} {f : PersonField} {idx : Nat}
    {key : String} {v : Value}
    (h : setItemField w f idx key v = .ok w') :
    f ∈ w.fieldMask ∧
    w'.originalModel = w.originalModel ∧ w'.fieldMask = w.fieldMask ∧
    ∃ xs d, dGet w.model f.value = some (.vlist xs) ∧
      xs.get? idx = some (.vdict d) ∧
      w'.model = dSet w.model f.value (.vlist (xs.set idx (.vdict (dSet d key v)))) := by
  unfold setItemField at h
  split at h
  · exact absurd h (by simp)
  · exact absurd h (by simp)
  next part _ hmf _ =>
    split at h
    · rename_i _ xs
      obtain ⟨hmem, hpart⟩ := modelField_ok_elim hmf
      split at h
      · rename_i d hd
        simp only [Except.ok.injEq] at h
        subst h
        exact ⟨hmem, rfl, rfl, xs, d, hpart.symm, hd, rfl⟩
      · exact absurd h (by simp)
    · exact absurd h (by simp)

/-!
## C2 — change tracking
-/

/-- A wrapper over a document whose sole address already has city Hamburg. -/
def c2Wrapper : ModelWrapper :=
  mkWrapper [("addresses", .vlist [.vdict [("city", .vstr "Hamburg")]])]
    [PersonField.addresses]

/-- **C2 counterexample**: the claim says `has_changes()` becomes true after
*any* successful mutating operation.  Here a sub-field write through an item
view succeeds (it rewrites the value the field already holds), yet afterwards
the working document still equals the pristine copy and `has_changes()` is
false. -/
theorem c2_counterexample :
    setItemField c2Wrapper .addresses 0 "city" (.vstr "Hamburg") = .ok c2Wrapper ∧
    hasChanges c2Wrapper = false := by
  constructor
  · rfl
  · rfl

/-- **C2 (amended)**: `has_changes()` is false immediately after construction,
and is true exactly when the working document differs from the pristine copy.
A successful append performed on an unchanged wrapper always makes it true.
A successful sub-field write performed on an unchanged wrapper makes it true
if and only if the written value differs from the value the key currently
reads — rewriting an already-present value leaves it false.  Read operations
in this embedding return values without producing a successor state, so they
never affect `has_changes()`. -/
theorem c2_change_tracking :
    (∀ (D : Doc) (M : List PersonField), hasChanges (mkWrapper D M) = false) ∧
    (∀ w : ModelWrapper, hasChanges w = true ↔ w.model ≠ w.originalModel) ∧
    (∀ (w w' : ModelWrapper) (field : PersonField) (item : Value),
      w.model = w.originalModel →
      appendToModel w field item = .ok w' →
      hasChanges w' = true) ∧
    (∀ (w w' : ModelWrapper) (field : PersonField) (idx : Nat) (key : String) (v : Value),
      w.model = w.originalModel →
      setItemField w field idx key v = .ok w' →
      (hasChanges w' = false ↔ getItemField w field idx key = .ok (some v))) := by
  refine ⟨fun D M => by simp [hasChanges, mkWrapper], fun w => by simp [hasChanges], ?_, ?_⟩
  · intro w w' field item hpris hok
    obtain ⟨hmem, horig, hmask, hcases⟩ := appendToModel_ok_elim hok
    simp only [hasChanges, ne_eq, decide_eq_true_eq]
    rw [horig, ← hpris]
    rcases hcases with ⟨habs, hmodel⟩ | ⟨xs, hsome, hmodel⟩
    · intro heq
      rw [hmodel] at heq
      rw [dSet_eq_self_iff] at heq
      rw [habs] at heq
      exact Option.noConfusion heq
    · intro heq
      rw [hmodel] at heq
      rw [dSet_eq_self_iff, hsome] at heq
      simp at heq
  · intro w w' field idx key v hpris hok
    obtain ⟨hmem, horig, hmask, xs, d, hsome, hidx, hmodel⟩ := setItemField_ok_elim hok
    have hlt : idx < xs.length := by
      rcases List.get?_eq_some.mp hidx with ⟨hl, _⟩
      exact hl
    have hidx' : xs[idx]? = some (.vdict d) := by
      rw [← List.get?_eq_getElem?]
      exact hidx
    have hgif : getItemField w field idx key = .ok (dGet d key) := by
      unfold getItemField
      simp [modelField, hmem, hsome, hidx']
    have key_iff :
        (dSet w.model field.value (.vlist (xs.set idx (.vdict (dSet d key v)))) = w.model)
        ↔ dGet d key = some v := by
      rw [dSet_eq_self_iff, hsome]
      simp only [Option.some.injEq, Value.vlist.injEq]
      rw [eq_comm, list_set_eq_self_iff _ _ _ hlt, hidx]
      simp only [Option.some.injEq, Value.vdict.injEq]
      rw [eq_comm, dSet_eq_self_iff]
    have hfc : hasChanges w' = false ↔ w'.model = w'.originalModel := by
      simp [hasChanges]
    rw [hgif, hfc, horig, ← hpris, hmodel, key_iff]
    simp

/-- A wrapper over an empty-but-present email list, and its state after one
append. -/
def c2AppendW : ModelWrapper :=
  mkWrapper [("emailAddresses", .vlist [])] [PersonField.email_addresses]

/-- The state of `c2AppendW` after appending one email item. -/
def c2AppendW' : ModelWrapper :=
  { model := [("emailAddresses", .vlist [.vdict [("value", .vstr "x@y.z")]])],
    originalModel := [("emailAddresses", .vlist [])],
    fieldMask := [PersonField.email_addresses] }

theorem c2_change_tracking_witness :
    hasChanges (mkWrapper [] []) = false ∧
    hasChanges c2AppendW' = true ∧
    (hasChanges c2Wrapper = false ↔
      getItemField c2Wrapper .addresses 0 "city" = .ok (some (.vstr "Hamburg"))) :=
  ⟨c2_change_tracking.1 [] [],
   c2_change_tracking.2.2.1 c2AppendW c2AppendW' .email_addresses
     (.vdict [("value", .vstr "x@y.z")]) rfl (by rfl),
   c2_change_tracking.2.2.2 c2Wrapper c2Wrapper .addresses 0 "city" (.vstr "Hamburg")
     rfl (by rfl)⟩

/-!
## C7 / C8 — DateValue round-trip and visitor dispatch
-/

theorem except_bind_ok {ε α β : Type} {e : Except ε α} {f : α → Except ε β} {b : β}
    (h : (e >>= f) = .ok b) : ∃ a, e = .ok a ∧ f a = .ok b := by
  cases e with
  | ok a => exact ⟨a, rfl, h⟩
  | error err => exact absurd h (by simp [Bind.bind, Except.bind])

theorem checkYearRange_ok {y y' : Option Int} (h : checkYearRange y = .ok y') :
    y' = y ∧ ∀ a ∈ y, 0 < a := by
  cases y with
  | none =>
    simp only [checkYearRange, Except.ok.injEq] at h
    exact ⟨h.symm, by simp⟩
  | some a =>
    simp only [checkYearRange] at h
    split at h
    · exact absurd h (by simp)
    · rename_i hc
      simp only [Except.ok.injEq] at h
      refine ⟨h.symm, ?_⟩
      intro b hb
      simp only [Option.mem_def, Option.some.injEq] at hb
      subst hb
      omega

theorem checkMonthRange_ok {m m' : Option Int} (h : checkMonthRange m = .ok m') :
    m' = m ∧ ∀ a ∈ m, 1 ≤ a ∧ a ≤ 12 := by
  cases m with
  | none =>
    simp only [checkMonthRange, Except.ok.injEq] at h
    exact ⟨h.symm, by simp⟩
  | some a =>
    simp only [checkMonthRange] at h
    split at h
    · exact absurd h (by simp)
    · rename_i hc
      simp only [Except.ok.injEq] at h
      refine ⟨h.symm, ?_⟩
      intro b hb
      simp only [Option.mem_def, Option.some.injEq] at hb
      subst hb
      omega

theorem checkDayRange_ok {d d' : Option Int} (h : checkDayRange d = .ok d') :
    d' = d ∧ ∀ a ∈ d, 1 ≤ a ∧ a ≤ 31 := by
  cases d with
  | none =>
    simp only [checkDayRange, Except.ok.injEq] at h
    exact ⟨h.symm, by simp⟩
  | some a =>
    simp only [checkDayRange] at h
    split at h
    · exact absurd h (by simp)
    · rename_i hc
      simp only [Except.ok.injEq] at h
      refine ⟨h.symm, ?_⟩
      intro b hb
      simp only [Option.mem_def, Option.some.injEq] at hb
      subst hb
      omega

/-- Success-shape analysis of the checked `DateValue` constructor. -/
theorem make_ok_elim {y m d : Option Int} {x : DateValue}
    (h : DateValue.make y m d = .ok x) :
    x.year = y ∧ x.month = m ∧ x.day = d ∧
    (∀ a ∈ y, 0 < a) ∧ (∀ a ∈ m, 1 ≤ a ∧ a ≤ 12) ∧ (∀ a ∈ d, 1 ≤ a ∧ a ≤ 31) := by
  unfold DateValue.make at h
  obtain ⟨y', hy, h⟩ := except_bind_ok h
  obtain ⟨m', hm, h⟩ := except_bind_ok h
  obtain ⟨d', hd, h⟩ := except_bind_ok h
  obtain ⟨hy1, hy2⟩ := checkYearRange_ok hy
  obtain ⟨hm1, hm2⟩ := checkMonthRange_ok hm
  obtain ⟨hd1, hd2⟩ := checkDayRange_ok hd
  simp only [Except.ok.injEq] at h
  subst h hy1 hm1 hd1
  exact ⟨rfl, rfl, rfl, hy2, hm2, hd2⟩

theorem checkYearRange_of (y : Option Int) (h : ∀ a ∈ y, 0 < a) :
    checkYearRange y = .ok y := by
  cases y with
  | none => rfl
  | some a =>
    have ha := h a rfl
    simp only [checkYearRange]
    rw [if_neg (by omega)]

theorem checkMonthRange_of (m : Option Int) (h : ∀ a ∈ m, 1 ≤ a ∧ a ≤ 12) :
    checkMonthRange m = .ok m := by
  cases m with
  | none => rfl
  | some a =>
    have ha := h a rfl
    simp only [checkMonthRange]
    rw [if_neg (by omega)]

theorem checkDayRange_of (d : Option Int) (h : ∀ a ∈ d, 1 ≤ a ∧ a ≤ 31) :
    checkDayRange d = .ok d := by
  cases d with
  | none => rfl
  | some a =>
    have ha := h a rfl
    simp only [checkDayRange]
    rw [if_neg (by omega)]

/-- The checked constructor succeeds, unchanged, on in-range components. -/
theorem make_of_valid (y m d : Option Int) (hy : ∀ a ∈ y, 0 < a)
    (hm : ∀ a ∈ m, 1 ≤ a ∧ a ≤ 12) (hd : ∀ a ∈ d, 1 ≤ a ∧ a ≤ 31) :
    DateValue.make y m d = .ok ⟨y, m, d⟩ := by
  unfold DateValue.make
  rw [checkYearRange_of y hy, checkMonthRange_of m hm, checkDayRange_of d hd]
  rfl

/-- **C7**: for every validly constructed `DateValue` (each present component
within its range), converting to the wire form with absent components encoded
as the sentinel `0` and parsing back yields the same value:
`DateValue.from_google(x.google_value()) == x`. -/
theorem c7_date_roundtrip (y m d : Option Int) (x : DateValue)
    (h : DateValue.make y m d = .ok x) :
    from_google (google_value x) = .ok x := by
  obtain ⟨hy, hm, hd, hyv, hmv, hdv⟩ := make_ok_elim h
  subst hy hm hd
  rcases x with ⟨oy, om, od⟩
  simp only at hyv hmv hdv
  have entries : from_google (google_value ⟨oy, om, od⟩) =
      DateValue.make
        (if sentinelValue oy ≤ 0 then none else some (sentinelValue oy))
        (if sentinelValue om ≤ 0 then none else some (sentinelValue om))
        (if sentinelValue od ≤ 0 then none else some (sentinelValue od)) := rfl
  rw [entries]
  have e1 : (if sentinelValue oy ≤ 0 then (none : Option Int) else some (sentinelValue oy)) = oy := by
    cases oy with
    | none => simp [sentinelValue]
    | some a =>
      have := hyv a rfl
      simp only [sentinelValue, if_neg (by omega : ¬a = 0)]
      rw [if_neg (by omega)]
  have e2 : (if sentinelValue om ≤ 0 then (none : Option Int) else some (sentinelValue om)) = om := by
    cases om with
    | none => simp [sentinelValue]
    | some a =>
      have := hmv a rfl
      simp only [sentinelValue, if_neg (by omega : ¬a = 0)]
      rw [if_neg (by omega)]
  have e3 : (if sentinelValue od ≤ 0 then (none : Option Int) else some (sentinelValue od)) = od := by
    cases od with
    | none => simp [sentinelValue]
    | some a =>
      have := hdv a rfl
      simp only [sentinelValue, if_neg (by omega : ¬a = 0)]
      rw [if_neg (by omega)]
  rw [e1, e2, e3]
  exact make_of_valid oy om od hyv hmv hdv

theorem c7_date_roundtrip_witness :
    from_google (google_value ⟨some 1935, some 6, none⟩) = .ok ⟨some 1935, some 6, none⟩ :=
  c7_date_roundtrip (some 1935) (some 6) none ⟨some 1935, some 6, none⟩ rfl

/-- The month-only value obtainable through `DateValue.from_google`. -/
def monthOnly : DateValue := ⟨none, some 5, none⟩

/-- A calendar-invalid full date accepted by `DateValue.__init__`
(day 31 passes the `1..31` range check although February has no day 31). -/
def feb31 : DateValue := ⟨some 2021, some 2, some 31⟩

/-- **C8 counterexample**: two constructible values on which the claimed
dispatch fails.  `monthOnly` comes out of the public constructor
`from_google`, has a component set (its month), yet `visit_value` falls
through the whole `if`/`elif` chain and invokes *no* visitor callback.
`feb31` passes every range check of `DateValue.__init__`, yet `visit_value`
raises `ValueError` from `date(2021, 2, 31)` and invokes *no* callback rather
than `visit_full_date`. -/
theorem c8_counterexample :
    (from_google [("month", 5)] = .ok monthOnly ∧
     monthOnly.month.isSome = true ∧
     visit_value monthOnly = .ok none) ∧
    (DateValue.make (some 2021) (some 2) (some 31) = .ok feb31 ∧
     visit_value feb31 = .error (.valueError "day is out of range for month")) :=
  ⟨⟨rfl, rfl, rfl⟩, rfl, rfl⟩

/-- **C8 (amended)**: for every value the public constructors can produce,
`visit_value` invokes *at most* one callback, selected by the presence
pattern: on year+month+day it invokes full-date only when the triple is a
valid calendar date for `datetime.date` (year at most 9999, day within that
month's Gregorian length) and otherwise raises `ValueError` invoking no
callback; without-day fires on year+month; without-year on month+day (no
year); year-only whenever the year is set and the month is not (so a
year+day value drops its day); and *no* callback fires for month-only,
day-only and empty values. -/
theorem c8_visit_dispatch (y m d : Option Int) (x : DateValue)
    (h : DateValue.make y m d = .ok x) :
    visit_value x = visitClassify x := by
  obtain ⟨hy, hm, hd, hyv, hmv, hdv⟩ := make_ok_elim h
  subst hy hm hd
  rcases x with ⟨oy, om, od⟩
  simp only at hyv hmv hdv
  rcases oy with _ | a <;> rcases om with _ | b <;> rcases od with _ | c
  · rfl
  · rfl
  · have hb : (b != 0) = true := by have := hmv b rfl; simp; omega
    simp [visit_value, visitClassify, intTruthy, hb]
  · have hb : (b != 0) = true := by have := hmv b rfl; simp; omega
    have hc : (c != 0) = true := by have := hdv c rfl; simp; omega
    simp [visit_value, visitClassify, intTruthy, hb, hc]
  · have ha : (a != 0) = true := by have := hyv a rfl; simp; omega
    simp [visit_value, visitClassify, intTruthy, ha]
  · have ha : (a != 0) = true := by have := hyv a rfl; simp; omega
    simp [visit_value, visitClassify, intTruthy, ha]
  · have ha : (a != 0) = true := by have := hyv a rfl; simp; omega
    have hb : (b != 0) = true := by have := hmv b rfl; simp; omega
    simp [visit_value, visitClassify, intTruthy, ha, hb]
  · have ha : (a != 0) = true := by have := hyv a rfl; simp; omega
    have hb : (b != 0) = true := by have := hmv b rfl; simp; omega
    have hc : (c != 0) = true := by have := hdv c rfl; simp; omega
    cases hdt : datetime_date a b c <;>
      simp [visit_value, visitClassify, intTruthy, ha, hb, hc, hdt, Except.map]

theorem c8_visit_dispatch_witness :
    visit_value ⟨some 2020, none, some 14⟩ = visitClassify ⟨some 2020, none, some 14⟩ :=
  c8_visit_dispatch (some 2020) none (some 14) ⟨some 2020, none, some 14⟩ rfl

/-!
## C9 — lookup by type tag
-/

/-- An item document with no type key: its tag reads as the empty string. -/
def untypedItem : Value := .vdict []

/-- **C9 counterexample**: for the empty type tag, `all_of_type("")` yields
nothing even though the list contains an item whose type tag equals `""` —
the filter `item and item.vtype and item.vtype == vtype` requires the tag
string to be truthy, so the claim that membership is decided by type-tag
equality alone fails at `t = ""`. -/
theorem c9_counterexample :
    vtypeOf untypedItem = "" ∧
    all_of_type "" [untypedItem] = [] ∧
    ([untypedItem].filter (fun item => vtypeOf item == "")) = [untypedItem] :=
  ⟨rfl, rfl, rfl⟩

theorem all_of_type_empty_tag (items : List Value) : all_of_type "" items = [] := by
  unfold all_of_type
  induction items with
  | nil => rfl
  | cons x xs ih =>
    rw [List.filter_cons]
    cases hvt : vtypeOf x == "" with
    | false =>
      simp only [hvt, Bool.and_false, Bool.false_eq_true, if_false]
      exact ih
    | true =>
      have hv : vtypeOf x = "" := eq_of_beq hvt
      simp only [hv, bne_self_eq_false, Bool.false_and, Bool.false_eq_true, if_false]
      exact ih

/-- **C9 (amended)**: membership in `all_of_type(t)` is decided by type-tag
equality *and* tag truthiness.  For every nonempty tag `t`, `all_of_type t`
yields exactly the items whose tag equals `t`, in the original order, and
`first_of_type t` the first of these or none; for the empty tag both yield
nothing, because items with an absent or empty tag never pass the filter. -/
theorem c9_type_lookup (t : String) (items : List Value) :
    (t ≠ "" →
      all_of_type t items = items.filter (fun item => vtypeOf item == t) ∧
      first_of_type t items = (items.filter (fun item => vtypeOf item == t)).head?) ∧
    (all_of_type "" items = [] ∧ first_of_type "" items = none) := by
  have hfilter : ∀ s : String, s ≠ "" →
      all_of_type s items = items.filter (fun item => vtypeOf item == s) := by
    intro s hs
    unfold all_of_type
    apply List.filter_congr
    intro item _
    cases hvt : vtypeOf item == s with
    | false => simp
    | true =>
      have hv : vtypeOf item = s := eq_of_beq hvt
      simp [hv, hs]
  have hempty := all_of_type_empty_tag items
  refine ⟨fun ht => ⟨hfilter t ht, ?_⟩, hempty, ?_⟩
  · unfold first_of_type
    rw [hfilter t ht]
  · unfold first_of_type
    rw [hempty]
    rfl

/-- A list with a home-typed, a work-typed and an untyped item. -/
def c9Items : List Value :=
  [.vdict [("type", .vstr "home")], .vdict [("type", .vstr "work")], .vdict []]

theorem c9_type_lookup_witness :
    all_of_type "work" c9Items = c9Items.filter (fun item => vtypeOf item == "work") ∧
    first_of_type "work" c9Items =
      (c9Items.filter (fun item => vtypeOf item == "work")).head? :=
  (c9_type_lookup "work" c9Items).1 (by decide)

/-!
## C4 — append on a list-attribute projection
-/

theorem allItems_of_list {w : ModelWrapper} {field : PersonField} {xs : List Value}
    (hmem : field ∈ w.fieldMask) (h : dGet w.model field.value = some (.vlist xs)) :
    allItems w field = .ok xs := by
  unfold allItems
  rw [show modelField w field = .ok (some (.vlist xs)) from by simp [modelField, hmem, h]]
  cases xs with
  | nil => rfl
  | cons x t => rfl

/-- **C4**: appending through a list-attribute projection whose field is in
the mask: when the backing key is absent from the document, the write-callback
creates it and afterwards the attribute holds — and the projection yields —
exactly the one appended item; when the key already holds a list, its length
grows by exactly one, the prior items keep their order, and the new item is
last. -/
theorem c4_append (w : ModelWrapper) (field : PersonField) (item : Value)
    (hmem : field ∈ w.fieldMask) :
    (dGet w.model field.value = none →
      ∃ w', appendToModel w field item = .ok w' ∧
        dGet w'.model field.value = some (.vlist [item]) ∧
        allItems w' field = .ok [item]) ∧
    (∀ xs, dGet w.model field.value = some (.vlist xs) →
      ∃ w', appendToModel w field item = .ok w' ∧
        dGet w'.model field.value = some (.vlist (xs ++ [item])) ∧
        allItems w' field = .ok (xs ++ [item])) := by
  constructor
  · intro habs
    refine ⟨{ w with model := dSet (dSet w.model field.value (.vlist [])) field.value (.vlist ([] ++ [item])) }, ?_, ?_, ?_⟩
    · unfold appendToModel invokeCreationCallback
      rw [show modelField w field = .ok none from by simp [modelField, hmem, habs],
          show creationCallbackCheck w field = .ok () from by
            simp [creationCallbackCheck, hmem]]
      rw [habs]
      rfl
    · exact dGet_dSet_self _ _ _
    · exact allItems_of_list hmem (dGet_dSet_self _ _ _)
  · intro xs hsome
    cases hxs : xs.isEmpty with
    | true =>
      have hnil : xs = [] := List.isEmpty_iff.mp hxs
      subst hnil
      refine ⟨{ w with model := dSet w.model field.value (.vlist ([] ++ [item])) }, ?_, ?_, ?_⟩
      · unfold appendToModel invokeCreationCallback
        rw [show modelField w field = .ok (some (.vlist [])) from by
              simp [modelField, hmem, hsome],
            show creationCallbackCheck w field = .ok () from by
              simp [creationCallbackCheck, hmem]]
        rw [hsome]
        rfl
      · exact dGet_dSet_self _ _ _
      · exact allItems_of_list hmem (dGet_dSet_self _ _ _)
    | false =>
      have hne : ¬falsy (some (.vlist xs)) = true := by
        cases xs with
        | nil => simp at hxs
        | cons x t => simp [falsy]
      refine ⟨{ w with model := dSet w.model field.value (.vlist (xs ++ [item])) }, ?_, ?_, ?_⟩
      · unfold appendToModel
        rw [show modelField w field = .ok (some (.vlist xs)) from by
              simp [modelField, hmem, hsome],
            show creationCallbackCheck w field = .ok () from by
              simp [creationCallbackCheck, hmem]]
        simp only [hne, if_false, Bool.false_eq_true]
        rfl
      · exact dGet_dSet_self _ _ _
      · exact allItems_of_list hmem (dGet_dSet_self _ _ _)

/-- A wrapper with one phone number present and the birthdays key absent. -/
def c4Wrapper : ModelWrapper :=
  mkWrapper [("phoneNumbers", .vlist [.vdict [("value", .vstr "+49")]])]
    [PersonField.phone_numbers, PersonField.birthdays]

theorem c4_append_witness :
    (∃ w', appendToModel c4Wrapper .birthdays (.vdict [("date", .vdict [])]) = .ok w' ∧
      dGet w'.model "birthdays" = some (.vlist [.vdict [("date", .vdict [])]]) ∧
      allItems w' .birthdays = .ok [.vdict [("date", .vdict [])]]) ∧
    (∃ w', appendToModel c4Wrapper .phone_numbers (.vdict [("value", .vstr "+33")]) = .ok w' ∧
      dGet w'.model "phoneNumbers" =
        some (.vlist ([.vdict [("value", .vstr "+49")]] ++ [.vdict [("value", .vstr "+33")]])) ∧
      allItems w' .phone_numbers =
        .ok ([.vdict [("value", .vstr "+49")]] ++ [.vdict [("value", .vstr "+33")]])) :=
  ⟨(c4_append c4Wrapper .birthdays (.vdict [("date", .vdict [])]) (by decide)).1 rfl,
   (c4_append c4Wrapper .phone_numbers (.vdict [("value", .vstr "+33")]) (by decide)).2
     [.vdict [("value", .vstr "+49")]] rfl⟩

/-!
## C5 — the single-element names attribute
-/

theorem appendToModel_absent {w : ModelWrapper} {field : PersonField} (item : Value)
    (hmem : field ∈ w.fieldMask) (habs : dGet w.model field.value = none) :
    appendToModel w field item =
      .ok { w with model := dSet (dSet w.model field.value (.vlist [])) field.value (.vlist ([] ++ [item])) } := by
  unfold appendToModel invokeCreationCallback
  rw [show modelField w field = .ok none from by simp [modelField, hmem, habs],
      show creationCallbackCheck w field = .ok () from by simp [creationCallbackCheck, hmem]]
  rw [habs]
  rfl

theorem appendToModel_emptyList {w : ModelWrapper} {field : PersonField} (item : Value)
    (hmem : field ∈ w.fieldMask) (hsome : dGet w.model field.value = some (.vlist [])) :
    appendToModel w field item =
      .ok { w with model := dSet w.model field.value (.vlist [item]) } := by
  unfold appendToModel invokeCreationCallback
  rw [show modelField w field = .ok (some (.vlist [])) from by simp [modelField, hmem, hsome],
      show creationCallbackCheck w field = .ok () from by simp [creationCallbackCheck, hmem]]
  rw [hsome]
  rfl

/-- **C5**: on a names attribute with no existing element — the key is absent
or holds the empty list — and with the names field in the mask: writing
`given_name` through the facade auto-creates exactly one name element whose
`given_name` reads back the written value, and afterwards any direct append
on the names attribute fails with the multiple-names `ValueError`; an error
produces no successor state in this embedding, so the failed call leaves the
document exactly as it was. -/
theorem c5_names_single (w : ModelWrapper) (g : String)
    (hmem : PersonField.names ∈ w.fieldMask)
    (hempty : dGet w.model "names" = none ∨ dGet w.model "names" = some (.vlist [])) :
    ∃ w', namesSetGivenName w g = .ok w' ∧
      dGet w'.model "names" = some (.vlist [.vdict [("givenName", .vstr g)]]) ∧
      namesGetGivenName w' = .ok (some g) ∧
      ∀ item, namesAppendToModel w' item =
        .error (.valueError
          "Cannot append another name object, only one name item is allowed per person") := by
  have hfirst : namesFirst w = .ok none := by
    unfold namesFirst
    rcases hempty with h | h
    · rw [show allItems w .names = .ok [] from by
        simp [allItems, modelField, hmem, PersonField.value, h, falsy]]
      rfl
    · rw [show allItems w .names = .ok [] from by
        simp [allItems, modelField, hmem, PersonField.value, h, falsy]]
      rfl
  have happend : namesAppendToModel w (.vdict [("givenName", .vstr g)]) =
      .ok { w with model := dSet w.model "names" (.vlist [.vdict [("givenName", .vstr g)]]) } := by
    unfold namesAppendToModel
    rw [hfirst]
    show appendToModel w .names (.vdict [("givenName", .vstr g)]) = _
    rcases hempty with h | h
    · rw [appendToModel_absent _ hmem h]
      rw [dSet_dSet]
      rfl
    · rw [appendToModel_emptyList _ hmem h]
      rfl
  refine ⟨{ w with model := dSet w.model "names" (.vlist [.vdict [("givenName", .vstr g)]]) },
    ?_, dGet_dSet_self _ _ _, ?_, ?_⟩
  · unfold namesSetGivenName
    rw [show modelField w .names = .ok (dGet w.model "names") from by
          simp [modelField, hmem, PersonField.value],
        show creationCallbackCheck w .names = .ok () from by
          simp [creationCallbackCheck, hmem],
        show namesFirst w = .ok none from hfirst]
    exact happend
  · unfold namesGetGivenName namesFirst
    rw [show allItems { w with model := dSet w.model "names" (.vlist [.vdict [("givenName", .vstr g)]]) } .names = .ok [.vdict [("givenName", .vstr g)]] from
          allItems_of_list hmem (dGet_dSet_self _ _ _)]
    rfl
  · intro item
    unfold namesAppendToModel namesFirst
    rw [show allItems { w with model := dSet w.model "names" (.vlist [.vdict [("givenName", .vstr g)]]) } .names = .ok [.vdict [("givenName", .vstr g)]] from
          allItems_of_list hmem (dGet_dSet_self _ _ _)]
    rfl

/-- A wrapper whose mask requests names and whose document has no names key. -/
def c5Wrapper : ModelWrapper :=
  mkWrapper [("resourceName", .vstr "people/c5")] [PersonField.names]

theorem c5_names_single_witness :
    ∃ w', namesSetGivenName c5Wrapper "Klaus" = .ok w' ∧
      dGet w'.model "names" = some (.vlist [.vdict [("givenName", .vstr "Klaus")]]) ∧
      namesGetGivenName w' = .ok (some "Klaus") ∧
      ∀ item, namesAppendToModel w' item =
        .error (.valueError
          "Cannot append another name object, only one name item is allowed per person") :=
  c5_names_single c5Wrapper "Klaus" (by decide) (Or.inl rfl)

/-!
## C3 — the removal law

Proof layer: `suggFrom` is a recursive reformulation of the enumerate-filter
suggestion list, and `eraseAscChecked` processes an ascending index list from
the right — equal to the code's descending deletion loop on sorted input.
-/

/-- Recursive form of the removal suggestion starting at index `n`. -/
def suggFrom (p : α → Bool) : Nat → List α → List Nat
  | _, [] => []
  | n, x :: l => if p x then n :: suggFrom p (n + 1) l else suggFrom p (n + 1) l

/-- Deletion of an ascending index list, processed right to left, with the
same per-index length check as the code's loop. -/
def eraseAscChecked : List α → List Nat → Except Err (List α)
  | l, [] => .ok l
  | l, i :: rest =>
      (eraseAscChecked l rest).bind fun r =>
        if r.length ≤ i then .error (.indexError "index too large on delete")
        else .ok (r.eraseIdx i)

theorem suggestRemoval_eq_suggFrom (p : α → Bool) (l : List α) :
    suggestRemoval p l = suggFrom p 0 l := by
  suffices h : ∀ (n : Nat) (l : List α),
      ((List.enumFrom n l).filter (fun ix => p ix.2)).map Prod.fst = suggFrom p n l by
    exact h 0 l
  intro n l
  induction l generalizing n with
  | nil => rfl
  | cons x t ih =>
    show ((List.enumFrom n (x :: t)).filter (fun ix => p ix.2)).map Prod.fst = _
    rw [show List.enumFrom n (x :: t) = (n, x) :: List.enumFrom (n + 1) t from rfl,
        List.filter_cons]
    cases hp : p x with
    | true =>
      simp only [hp, if_true, List.map_cons]
      rw [ih (n + 1)]
      simp [suggFrom, hp]
    | false =>
      simp only [hp, Bool.false_eq_true, if_false]
      rw [ih (n + 1)]
      simp [suggFrom, hp]

theorem suggFrom_shift (p : α → Bool) (l : List α) :
    ∀ n, suggFrom p (n + 1) l = (suggFrom p n l).map (· + 1) := by
  induction l with
  | nil => intro n; rfl
  | cons x t ih =>
    intro n
    cases hp : p x with
    | true => simp [suggFrom, hp, ih (n + 1), ih n]
    | false => simp [suggFrom, hp, ih (n + 1), ih n]

theorem suggFrom_bounds (p : α → Bool) (l : List α) :
    ∀ n, ∀ i ∈ suggFrom p n l, n ≤ i ∧ i < n + l.length := by
  induction l with
  | nil => intro n i hi; simp [suggFrom] at hi
  | cons x t ih =>
    intro n i hi
    cases hp : p x with
    | true =>
      simp only [suggFrom, hp, if_true, List.mem_cons] at hi
      rcases hi with rfl | hi
      · simp
      · have := ih (n + 1) i hi
        constructor
        · omega
        · simp only [List.length_cons]
          omega
    | false =>
      simp only [suggFrom, hp, Bool.false_eq_true, if_false] at hi
      have := ih (n + 1) i hi
      constructor
      · omega
      · simp only [List.length_cons]
        omega

theorem suggFrom_pairwise (p : α → Bool) (l : List α) :
    ∀ n, (suggFrom p n l).Pairwise (· < ·) := by
  induction l with
  | nil => intro n; simp [suggFrom]
  | cons x t ih =>
    intro n
    cases hp : p x with
    | true =>
      simp only [suggFrom, hp, if_true]
      refine List.pairwise_cons.mpr ⟨?_, ih (n + 1)⟩
      intro i hi
      have := (suggFrom_bounds p t (n + 1) i hi).1
      omega
    | false =>
      simp only [suggFrom, hp, Bool.false_eq_true, if_false]
      exact ih (n + 1)

theorem suggFrom_length (p : α → Bool) (l : List α) :
    ∀ n, (suggFrom p n l).length = l.countP p := by
  induction l with
  | nil => intro n; rfl
  | cons x t ih =>
    intro n
    cases hp : p x with
    | true => simp [suggFrom, hp, ih (n + 1), List.countP_cons]
    | false => simp [suggFrom, hp, ih (n + 1), List.countP_cons]

theorem insertDesc_append (i : Nat) (l : List Nat) (h : ∀ j ∈ l, i < j) :
    insertDesc i l = l ++ [i] := by
  induction l with
  | nil => rfl
  | cons j t ih =>
    have hij : i < j := h j (List.mem_cons_self j t)
    simp only [insertDesc, if_neg (by omega : ¬j ≤ i)]
    rw [ih (fun a ha => h a (List.mem_cons_of_mem j ha))]
    rfl

theorem sortDescending_of_pairwise (l : List Nat) (h : l.Pairwise (· < ·)) :
    sortDescending l = l.reverse := by
  induction l with
  | nil => rfl
  | cons i t ih =>
    obtain ⟨hhead, htail⟩ := List.pairwise_cons.mp h
    show insertDesc i (sortDescending t) = _
    rw [ih htail, insertDesc_append i t.reverse
      (fun j hj => hhead j (List.mem_reverse.mp hj)), List.reverse_cons]

theorem deleteLoop_append (l : List α) (A B : List Nat) :
    deleteLoop l (A ++ B) = (deleteLoop l A).bind fun r => deleteLoop r B := by
  induction A generalizing l with
  | nil => rfl
  | cons a A ih =>
    show deleteLoop l (a :: (A ++ B)) = (deleteLoop l (a :: A)).bind _
    by_cases hl : l.length ≤ a
    · simp [deleteLoop, hl, Except.bind]
    · simp only [deleteLoop, if_neg hl]
      exact ih (l.eraseIdx a)

theorem deleteLoop_reverse (l : List α) (A : List Nat) :
    deleteLoop l A.reverse = eraseAscChecked l A := by
  induction A generalizing l with
  | nil => rfl
  | cons i A ih =>
    rw [List.reverse_cons, deleteLoop_append, ih l]
    show (eraseAscChecked l A).bind (fun r => deleteLoop r [i]) =
      (eraseAscChecked l A).bind fun r =>
        if r.length ≤ i then .error (.indexError "index too large on delete")
        else .ok (r.eraseIdx i)
    cases eraseAscChecked l A with
    | error e => rfl
    | ok r =>
      show deleteLoop r [i] = _
      by_cases hl : r.length ≤ i
      · simp [deleteLoop, hl, Except.bind]
      · simp [deleteLoop, hl, Except.bind]

theorem eraseAscChecked_map_succ (x : α) (l : List α) (S : List Nat) :
    eraseAscChecked (x :: l) (S.map (· + 1)) =
      (eraseAscChecked l S).map (fun r => x :: r) := by
  induction S with
  | nil => rfl
  | cons i S ih =>
    show (eraseAscChecked (x :: l) (S.map (· + 1))).bind _ =
      Except.map (fun r => x :: r) ((eraseAscChecked l S).bind fun r =>
        if r.length ≤ i then .error (.indexError "index too large on delete")
        else .ok (r.eraseIdx i))
    rw [ih]
    cases eraseAscChecked l S with
    | error e => rfl
    | ok r =>
      by_cases hl : r.length ≤ i
      · have hx : (x :: r).length ≤ i + 1 := by simpa using hl
        simp [Except.map, Except.bind, hl, hx]
      · have hx : ¬(x :: r).length ≤ i + 1 := by simpa using hl
        simp [Except.map, Except.bind, hl, hx, List.eraseIdx_cons_succ]

/-- Deleting the whole (ascending) suggestion removes exactly the matching
items: the descending deletion loop computes `filter (not ∘ p)`. -/
theorem eraseAscChecked_all (p : α → Bool) (l : List α) :
    eraseAscChecked l (suggFrom p 0 l) = .ok (l.filter fun a => !p a) := by
  induction l with
  | nil => rfl
  | cons x l ih =>
    cases hp : p x with
    | true =>
      simp only [suggFrom, hp, if_true]
      rw [suggFrom_shift]
      show (eraseAscChecked (x :: l) ((suggFrom p 0 l).map (· + 1))).bind _ = _
      rw [eraseAscChecked_map_succ, ih]
      simp [Except.map, Except.bind, List.filter_cons, hp]
    | false =>
      simp only [suggFrom, hp, Bool.false_eq_true, if_false]
      rw [suggFrom_shift, eraseAscChecked_map_succ, ih]
      simp [Except.map, List.filter_cons, hp]

/-- Deleting only the first suggested index removes the earliest match:
the result is a sublist with one fewer match. -/
theorem eraseAscChecked_first (p : α → Bool) (l : List α) :
    ∃ r, eraseAscChecked l ((suggFrom p 0 l).take 1) = .ok r ∧
      List.Sublist r l ∧ r.countP p = l.countP p - 1 ∧
      (suggFrom p 0 l = [] → r = l) ∧
      (∀ i, (suggFrom p 0 l).head? = some i → r = l.eraseIdx i) := by
  induction l with
  | nil =>
    refine ⟨[], rfl, List.Sublist.refl [], by simp, fun _ => rfl, ?_⟩
    intro i hi
    simp [suggFrom] at hi
  | cons x l ih =>
    cases hp : p x with
    | true =>
      refine ⟨l, ?_, List.sublist_cons_self x l, ?_, ?_, ?_⟩
      · simp only [suggFrom, hp, if_true, List.take_succ_cons, List.take_zero]
        simp [eraseAscChecked, Except.bind]
      · rw [List.countP_cons]
        simp [hp]
      · intro h
        simp [suggFrom, hp] at h
      · intro i hi
        simp only [suggFrom, hp, if_true, List.head?_cons, Option.some.injEq] at hi
        subst hi
        rfl
    | false =>
      obtain ⟨r₀, hok, hsub, hcount, hnil, hhead⟩ := ih
      refine ⟨x :: r₀, ?_, hsub.cons₂ x, ?_, ?_, ?_⟩
      · simp only [suggFrom, hp, Bool.false_eq_true, if_false]
        rw [suggFrom_shift, ← List.map_take, eraseAscChecked_map_succ, hok]
        rfl
      · rw [List.countP_cons, List.countP_cons]
        simp only [hp, Bool.false_eq_true, if_false, Nat.add_zero]
        exact hcount
      · intro h
        simp only [suggFrom, hp, Bool.false_eq_true, if_false] at h
        rw [suggFrom_shift] at h
        rw [hnil (List.map_eq_nil_iff.mp h)]
      · intro i hi
        simp only [suggFrom, hp, Bool.false_eq_true, if_false] at hi
        rw [suggFrom_shift] at hi
        cases hS : suggFrom p 0 l with
        | nil => rw [hS] at hi; simp at hi
        | cons j t =>
          rw [hS] at hi
          simp only [List.map_cons, List.head?_cons, Option.some.injEq] at hi
          subst hi
          rw [hhead j (by rw [hS]; rfl)]
          rfl

/-- Deleting all suggested indices except the first keeps exactly the
originally-first match. -/
theorem eraseAscChecked_exceptFirst (p : α → Bool) (l : List α) :
    ∃ r, eraseAscChecked l ((suggFrom p 0 l).drop 1) = .ok r ∧
      List.Sublist r l ∧ r.filter p = (l.filter p).take 1 := by
  induction l with
  | nil => exact ⟨[], rfl, List.Sublist.refl [], by simp⟩
  | cons x l ih =>
    cases hp : p x with
    | true =>
      refine ⟨x :: (l.filter fun a => !p a), ?_, (List.filter_sublist l).cons₂ x, ?_⟩
      · simp only [suggFrom, hp, if_true, List.drop_succ_cons, List.drop_zero]
        rw [suggFrom_shift, eraseAscChecked_map_succ, eraseAscChecked_all]
        rfl
      · rw [List.filter_cons, List.filter_cons]
        simp only [hp, if_true, List.take_succ_cons, List.take_zero]
        rw [List.filter_filter]
        have hff : ∀ a : α, (p a && !p a) = false := fun a => Bool.and_not_self (p a)
        rw [show (fun a => p a && !p a) = (fun _ : α => false) from funext hff]
        rw [List.filter_false]
    | false =>
      obtain ⟨r₀, hok, hsub, hfil⟩ := ih
      refine ⟨x :: r₀, ?_, hsub.cons₂ x, ?_⟩
      · simp only [suggFrom, hp, Bool.false_eq_true, if_false]
        rw [suggFrom_shift, ← List.map_drop, eraseAscChecked_map_succ, hok]
        rfl
      · rw [List.filter_cons, List.filter_cons]
        simp only [hp, Bool.false_eq_true, if_false]
        exact hfil

theorem remove_from_all (S : List Nat) : remove_from .removeAllSuggested S = S := by
  cases S <;> simp [remove_from]

theorem remove_from_first (S : List Nat) :
    remove_from .removeFirstSuggested S = S.take 1 := by
  cases S <;> simp [remove_from]

theorem remove_from_exceptFirst (S : List Nat) :
    remove_from .removeSuggestedExceptFirst S = S.drop 1 := by
  cases S <;> simp [remove_from]

/-- When the strategy result is a subset of the (ascending) suggestion, the
defensive subset check passes and `_remove` is the checked right-to-left
deletion of the strategy result. -/
theorem removeMatching_eq_eraseAsc (p : α → Bool) (strat : RemoveStrategy) (l : List α)
    (hsubset : ∀ i ∈ remove_from strat (suggestRemoval p l), i ∈ suggestRemoval p l)
    (hpair : (remove_from strat (suggestRemoval p l)).Pairwise (· < ·)) :
    removeMatching p strat l = eraseAscChecked l (remove_from strat (suggestRemoval p l)) := by
  have hall : (remove_from strat (suggestRemoval p l)).all
      (fun i => decide (i ∈ suggestRemoval p l)) = true :=
    List.all_eq_true.mpr (fun x hx => decide_eq_true (hsubset x hx))
  show (if (remove_from strat (suggestRemoval p l)).all (· ∈ suggestRemoval p l) = true
        then remove_by_index l (remove_from strat (suggestRemoval p l))
        else .error (.indexError "Removal of items with other values requested")) = _
  rw [if_pos hall]
  unfold remove_by_index
  rw [sortDescending_of_pairwise _ hpair, deleteLoop_reverse]

/-- **C3**: for a list whose items match the removal criterion at the sorted
suggested positions `S = suggestRemoval p l`: the remove-all strategy leaves
no matching items (it computes exactly the filter of the non-matching items);
the remove-first strategy removes exactly the earliest position of `S`,
leaving `|S| - 1` matching items and preserving the relative order of all
remaining items (the result is a sublist); the all-except-first strategy
leaves exactly one matching item, namely the originally first match. -/
theorem c3_removal_law (p : α → Bool) (l : List α) :
    (removeMatching p .removeAllSuggested l = .ok (l.filter fun a => !p a) ∧
      (l.filter fun a => !p a).countP p = 0) ∧
    (∃ r, removeMatching p .removeFirstSuggested l = .ok r ∧
      List.Sublist r l ∧ r.countP p = (suggestRemoval p l).length - 1 ∧
      (∀ i, (suggestRemoval p l).head? = some i → r = l.eraseIdx i)) ∧
    (∃ r, removeMatching p .removeSuggestedExceptFirst l = .ok r ∧
      List.Sublist r l ∧ r.filter p = (l.filter p).take 1) := by
  have hsugg := suggestRemoval_eq_suggFrom p l
  have hpairS : (suggestRemoval p l).Pairwise (· < ·) := by
    rw [hsugg]
    exact suggFrom_pairwise p l 0
  refine ⟨⟨?_, ?_⟩, ?_, ?_⟩
  · have heq : removeMatching p .removeAllSuggested l =
        eraseAscChecked l (suggestRemoval p l) := by
      rw [removeMatching_eq_eraseAsc, remove_from_all]
      · intro i hi
        rw [remove_from_all] at hi
        exact hi
      · rw [remove_from_all]
        exact hpairS
    rw [heq, hsugg]
    exact eraseAscChecked_all p l
  · rw [List.countP_eq_zero]
    intro a ha
    have := (List.mem_filter.mp ha).2
    simp at this
    simp [this]
  · obtain ⟨r, hok, hsub, hcnt, _, hhead⟩ := eraseAscChecked_first p l
    have heq : removeMatching p .removeFirstSuggested l =
        eraseAscChecked l ((suggestRemoval p l).take 1) := by
      rw [removeMatching_eq_eraseAsc, remove_from_first]
      · intro i hi
        rw [remove_from_first] at hi
        exact List.take_subset 1 _ hi
      · rw [remove_from_first]
        exact hpairS.sublist (List.take_sublist 1 _)
    refine ⟨r, ?_, hsub, ?_, ?_⟩
    · rw [heq, hsugg]
      exact hok
    · rw [hsugg, suggFrom_length]
      exact hcnt
    · intro i hi
      rw [hsugg] at hi
      exact hhead i hi
  · obtain ⟨r, hok, hsub, hfil⟩ := eraseAscChecked_exceptFirst p l
    have heq : removeMatching p .removeSuggestedExceptFirst l =
        eraseAscChecked l ((suggestRemoval p l).drop 1) := by
      rw [removeMatching_eq_eraseAsc, remove_from_exceptFirst]
      · intro i hi
        rw [remove_from_exceptFirst] at hi
        exact List.drop_subset 1 _ hi
      · rw [remove_from_exceptFirst]
        exact hpairS.sublist (List.drop_sublist 1 _)
    refine ⟨r, ?_, hsub, hfil⟩
    rw [heq, hsugg]
    exact hok

theorem c3_removal_law_witness :
    removeMatching (fun a => a == 2) .removeAllSuggested [1, 2, 3, 2] =
      .ok ([1, 2, 3, 2].filter fun a => !(a == 2)) ∧
    (∃ r, removeMatching (fun a => a == 2) .removeFirstSuggested [1, 2, 3, 2] = .ok r ∧
      r = [1, 2, 3, 2].eraseIdx 1) := by
  refine ⟨(c3_removal_law (fun a => a == 2) [1, 2, 3, 2]).1.1, ?_⟩
  obtain ⟨r, hok, _, _, hhead⟩ := (c3_removal_law (fun a => a == 2) [1, 2, 3, 2]).2.1
  exact ⟨r, hok, hhead 1 (by decide)⟩

/-!
## C6 — the mask frame property
-/

theorem namesAppendToModel_ok_elim {w w' : ModelWrapper} {item : Value}
    (h : namesAppendToModel w item = .ok w') :
    appendToModel w .names item = .ok w' := by
  unfold namesAppendToModel at h
  split at h
  · exact absurd h (by simp)
  · exact absurd h (by simp)
  · exact h

theorem removeAttr_ok_elim {w w' : ModelWrapper} {f : PersonField} {c : Crit}
    {strat : RemoveStrategy} (h : removeAttr w f c strat = .ok w') :
    f ∈ w.fieldMask ∧ w'.originalModel = w.originalModel ∧ w'.fieldMask = w.fieldMask ∧
    (w' = w ∨ ∃ xs', w'.model = dSet w.model f.value (.vlist xs')) := by
  unfold removeAttr at h
  split at h
  · exact absurd h (by simp)
  · exact absurd h (by simp)
  next part _ hmf _ =>
    obtain ⟨hmem, hpart⟩ := modelField_ok_elim hmf
    split at h
    · simp only [Except.ok.injEq] at h
      subst h
      exact ⟨hmem, rfl, rfl, Or.inl rfl⟩
    · split at h
      · split at h
        · exact absurd h (by simp)
        · split at h
          · split at h
            · exact absurd h (by simp)
            · rename_i xs' hxs'
              simp only [Except.ok.injEq] at h
              subst h
              exact ⟨hmem, rfl, rfl, Or.inr ⟨xs', rfl⟩⟩
          · exact absurd h (by simp)
      · exact absurd h (by simp)

theorem namesSetGivenName_ok_elim {w w' : ModelWrapper} {g : String}
    (h : namesSetGivenName w g = .ok w') :
    setItemField w .names 0 "givenName" (.vstr g) = .ok w' ∨
    appendToModel w .names (.vdict [("givenName", .vstr g)]) = .ok w' := by
  unfold namesSetGivenName at h
  split at h
  · exact absurd h (by simp)
  · exact absurd h (by simp)
  · split at h
    · exact absurd h (by simp)
    · exact Or.inl h
    · exact Or.inr (namesAppendToModel_ok_elim h)

/-- Every successful operation preserves the field mask and the pristine
original, and touches only the key of its own (masked) field. -/
theorem applyOp_frame {w w' : ModelWrapper} {op : WOp} (h : applyOp w op = .ok w') :
    w'.fieldMask = w.fieldMask ∧ w'.originalModel = w.originalModel ∧
    ∀ k, (∀ f ∈ w.fieldMask, f.value ≠ k) → dGet w'.model k = dGet w.model k := by
  cases op with
  | appendItem f item =>
    have happ : appendToModel w f item = .ok w' := by
      cases f <;> first
        | exact namesAppendToModel_ok_elim h
        | exact h
    obtain ⟨hmem, horig, hmask, hcases⟩ := appendToModel_ok_elim happ
    refine ⟨hmask, horig, ?_⟩
    intro k hk
    rcases hcases with ⟨_, hmodel⟩ | ⟨xs, _, hmodel⟩ <;>
      rw [hmodel, dGet_dSet_ne _ _ _ _ (hk f hmem)]
  | removeMatchingOp f c strat =>
    obtain ⟨hmem, horig, hmask, hcases⟩ := removeAttr_ok_elim h
    refine ⟨hmask, horig, ?_⟩
    intro k hk
    rcases hcases with rfl | ⟨xs', hmodel⟩
    · rfl
    · rw [hmodel, dGet_dSet_ne _ _ _ _ (hk f hmem)]
  | setSubField f idx key v =>
    obtain ⟨hmem, horig, hmask, xs, d, _, _, hmodel⟩ := setItemField_ok_elim h
    exact ⟨hmask, horig, fun k hk => by rw [hmodel, dGet_dSet_ne _ _ _ _ (hk f hmem)]⟩
  | setGivenName g =>
    rcases namesSetGivenName_ok_elim h with h' | h'
    · obtain ⟨hmem, horig, hmask, xs, d, _, _, hmodel⟩ := setItemField_ok_elim h'
      exact ⟨hmask, horig, fun k hk => by rw [hmodel, dGet_dSet_ne _ _ _ _ (hk _ hmem)]⟩
    · obtain ⟨hmem, horig, hmask, hcases⟩ := appendToModel_ok_elim h'
      refine ⟨hmask, horig, ?_⟩
      intro k hk
      rcases hcases with ⟨_, hmodel⟩ | ⟨xs, _, hmodel⟩ <;>
        rw [hmodel, dGet_dSet_ne _ _ _ _ (hk _ hmem)]

theorem runOps_frame (ops : List WOp) :
    ∀ (w : ModelWrapper) (k : String), (∀ f ∈ w.fieldMask, f.value ≠ k) →
    dGet (runOps w ops).model k = dGet w.model k ∧
    (runOps w ops).fieldMask = w.fieldMask := by
  induction ops with
  | nil => exact fun w k _ => ⟨rfl, rfl⟩
  | cons op ops ih =>
    intro w k hk
    cases hop : applyOp w op with
    | error e =>
      have hstep : runOps w (op :: ops) = runOps w ops := by
        simp [runOps, List.foldl_cons, hop]
      rw [hstep]
      exact ih w k hk
    | ok w1 =>
      have hstep : runOps w (op :: ops) = runOps w1 ops := by
        simp [runOps, List.foldl_cons, hop]
      obtain ⟨hmask, horig, hframe⟩ := applyOp_frame hop
      have hk1 : ∀ f ∈ w1.fieldMask, f.value ≠ k := by
        rw [hmask]
        exact hk
      obtain ⟨h1, h2⟩ := ih w1 k hk1
      rw [hstep]
      exact ⟨h1.trans (hframe k hk), h2.trans hmask⟩

/-- **C6**: for every document, mask, and sequence of wrapper operations,
every key of the document not named by the mask keeps its original value in
the working document — and hence in the `model_copy()` snapshot — untouched:
a read→mutate→snapshot round trip preserves everything outside the mask. -/
theorem c6_mask_frame (D : Doc) (M : List PersonField) (ops : List WOp) (k : String)
    (hk : ∀ f ∈ M, f.value ≠ k) :
    dGet (runOps (mkWrapper D M) ops).model k = dGet D k ∧
    dGet (modelCopy (runOps (mkWrapper D M) ops)) k = dGet D k := by
  obtain ⟨h1, _⟩ := runOps_frame ops (mkWrapper D M) k hk
  exact ⟨h1, h1⟩

theorem c6_mask_frame_witness :
    dGet (runOps (mkWrapper [("resourceName", .vstr "people/c6"), ("names", .vlist [])]
        [PersonField.addresses])
        [.appendItem .addresses (.vdict [("city", .vstr "Hamburg")])]).model "names" =
      dGet [("resourceName", .vstr "people/c6"), ("names", .vlist [])] "names" :=
  (c6_mask_frame [("resourceName", .vstr "people/c6"), ("names", .vlist [])]
    [PersonField.addresses]
    [.appendItem .addresses (.vdict [("city", .vstr "Hamburg")])] "names"
    (by decide)).1

/-!
## C10 — deep-copy independence (heap model)
-/

theorem hget_mem {h : Heap} {a : Nat} {c : HVal} (hg : hget h a = some c) : (a, c) ∈ h := by
  induction h with
  | nil => simp [hget] at hg
  | cons p t ih =>
    obtain ⟨a', c'⟩ := p
    by_cases ha : a' = a
    · subst ha
      have hg' : c' = c := by simpa [hget] using hg
      subst hg'
      exact List.mem_cons_self _ _
    · simp only [hget, if_neg ha] at hg
      exact List.mem_cons_of_mem _ (ih hg)

theorem closedBelow_hget {h : Heap} {n a : Nat} {c : HVal}
    (hc : ClosedBelow h n) (hg : hget h a = some c) :
    a < n ∧ ∀ b ∈ HVal.ptrs c, b < n :=
  hc (a, c) (hget_mem hg)

theorem ClosedBelow.segClosed_lt {h : Heap} {n : Nat} (hc : ClosedBelow h n) :
    SegClosed h (fun x => x < n) :=
  fun _ _ hg _ b hb => (closedBelow_hget hc hg).2 b hb

theorem ClosedBelow.segClosed_ge {h : Heap} {n : Nat} (hc : ClosedBelow h n) :
    SegClosed h (fun x => n ≤ x) := by
  intro a c hg ha
  have := (closedBelow_hget hc hg).1
  omega

theorem segClosed_compose {h1 h2 : Heap} {next n1 : Nat} (hle : next ≤ n1)
    (hagree : ∀ x, x < n1 → hget h2 x = hget h1 x)
    (hs1 : SegClosed h1 (fun x => next ≤ x))
    (hs2 : SegClosed h2 (fun x => n1 ≤ x)) :
    SegClosed h2 (fun x => next ≤ x) := by
  intro a c hg ha b hb
  by_cases han : a < n1
  · rw [hagree a han] at hg
    exact hs1 a c hg ha b hb
  · have := hs2 a c hg (by omega) b hb
    omega

/-- Heaps that agree on a pointer-closed region denote the same values
there; `denoteList`/`denoteDict` lift the pointwise agreement. -/
theorem denoteList_congr (fuel : Nat) (h h' : Heap) (P : Nat → Prop)
    (IH : ∀ a, P a → denote fuel h' a = denote fuel h a) :
    (∀ as : List Nat, (∀ a ∈ as, P a) →
      denoteList fuel h' as = denoteList fuel h as) ∧
    (∀ kvs : List (String × Nat), (∀ p ∈ kvs, P p.2) →
      denoteDict fuel h' kvs = denoteDict fuel h kvs) := by
  constructor
  · intro as has
    induction as with
    | nil => simp [denoteList]
    | cons a as ih =>
      simp only [denoteList]
      rw [IH a (has a (List.mem_cons_self a as)),
          ih (fun b hb => has b (List.mem_cons_of_mem a hb))]
  · intro kvs hkvs
    induction kvs with
    | nil => simp [denoteDict]
    | cons p kvs ih =>
      obtain ⟨k, a⟩ := p
      simp only [denoteDict]
      rw [IH a (hkvs (k, a) (List.mem_cons_self _ kvs)),
          ih (fun q hq => hkvs q (List.mem_cons_of_mem _ hq))]

theorem denote_agree (P : Nat → Prop) :
    ∀ (fuel : Nat) (h h' : Heap) (a : Nat), SegClosed h P →
      (∀ x, P x → hget h' x = hget h x) → P a →
      denote fuel h' a = denote fuel h a := by
  intro fuel
  induction fuel with
  | zero => intro h h' a _ _ _; simp [denote]
  | succ fuel ih =>
    intro h h' a hseg hagree ha
    have hcong := denoteList_congr fuel h h' P (fun b hb => ih h h' b hseg hagree hb)
    simp only [denote]
    rw [hagree a ha]
    cases hg : hget h a with
    | none => rfl
    | some c =>
      cases c with
      | hstr s => rfl
      | hint n => rfl
      | hlist as =>
        show (denoteList fuel h' as).map Value.vlist = (denoteList fuel h as).map Value.vlist
        rw [hcong.1 as (fun b hb => hseg a _ hg ha b (by simpa [HVal.ptrs] using hb))]
      | hdict kvs =>
        show (denoteDict fuel h' kvs).map Value.vdict = (denoteDict fuel h kvs).map Value.vdict
        rw [hcong.2 kvs (fun p hp =>
          hseg a _ hg ha p.2 (by simp only [HVal.ptrs]; exact List.mem_map_of_mem Prod.snd hp))]

theorem hget_hset_self (h : Heap) (n : Nat) (c : HVal) :
    hget (hset h n c) n = some c := by
  simp [hget, hset]

theorem hget_hset_ne {h : Heap} {n x : Nat} (c : HVal) (hx : n ≠ x) :
    hget (hset h n c) x = hget h x := by
  simp [hget, hset, hx]

theorem closedBelow_hset {h : Heap} {n m : Nat} {c : HVal} (hc : ClosedBelow h n)
    (hn : n < m) (hptrs : ∀ b ∈ HVal.ptrs c, b < m) :
    ClosedBelow (hset h n c) m := by
  intro p hp
  rcases List.mem_cons.mp hp with rfl | hp
  · exact ⟨hn, hptrs⟩
  · obtain ⟨h1, h2⟩ := hc p hp
    exact ⟨by omega, fun b hb => by have := h2 b hb; omega⟩

theorem segClosed_ge_hset {h : Heap} {next n : Nat} {c : HVal}
    (hs : SegClosed h (fun x => next ≤ x))
    (hptrs : ∀ b ∈ HVal.ptrs c, next ≤ b) :
    SegClosed (hset h n c) (fun x => next ≤ x) := by
  intro a c' hg ha b hb
  by_cases han : n = a
  · subst han
    rw [hget_hset_self] at hg
    injection hg with hg
    subst hg
    exact hptrs b hb
  · rw [hget_hset_ne _ han] at hg
    exact hs a c' hg ha b hb

/-- What one successful `dcopy` call guarantees: the allocation frontier only
grows, the copy root is fresh, the pre-existing heap is untouched, closedness
invariants are maintained, the freshly-allocated segment points only into
itself and later allocations, the copied root denotes the same value as the
source, and the source address was a live pre-existing cell. -/
def DcopyEnsures (fuel : Nat) (h : Heap) (next a : Nat) (h1 : Heap) (n1 r : Nat) : Prop :=
  next ≤ n1 ∧ next ≤ r ∧ r < n1 ∧
  (∀ x, x < next → hget h1 x = hget h x) ∧
  ClosedBelow h1 n1 ∧
  SegClosed h1 (fun x => next ≤ x) ∧
  denote fuel h1 r = denote fuel h a ∧
  a < next

/-- The corresponding guarantee for `dcopyList`. -/
def DcopyListEnsures (fuel : Nat) (h : Heap) (next : Nat) (as : List Nat)
    (h2 : Heap) (n2 : Nat) (rs : List Nat) : Prop :=
  next ≤ n2 ∧
  (∀ x, x < next → hget h2 x = hget h x) ∧
  ClosedBelow h2 n2 ∧
  SegClosed h2 (fun x => next ≤ x) ∧
  (∀ r ∈ rs, next ≤ r ∧ r < n2) ∧
  denoteList fuel h2 rs = denoteList fuel h as

/-- The corresponding guarantee for `dcopyDict`. -/
def DcopyDictEnsures (fuel : Nat) (h : Heap) (next : Nat) (kvs : List (String × Nat))
    (h2 : Heap) (n2 : Nat) (rs : List (String × Nat)) : Prop :=
  next ≤ n2 ∧
  (∀ x, x < next → hget h2 x = hget h x) ∧
  ClosedBelow h2 n2 ∧
  SegClosed h2 (fun x => next ≤ x) ∧
  (∀ p ∈ rs, next ≤ p.2 ∧ p.2 < n2) ∧
  denoteDict fuel h2 rs = denoteDict fuel h kvs

theorem dcopyList_spec_aux (fuel : Nat)
    (IH : ∀ (h : Heap) (next a : Nat) (h1 : Heap) (n1 r : Nat), ClosedBelow h next →
      dcopy fuel h next a = some (h1, n1, r) → DcopyEnsures fuel h next a h1 n1 r) :
    ∀ (as : List Nat) (h : Heap) (next : Nat) (h2 : Heap) (n2 : Nat) (rs : List Nat),
      ClosedBelow h next → (∀ x ∈ as, x < next) →
      dcopyList fuel h next as = some (h2, n2, rs) →
      DcopyListEnsures fuel h next as h2 n2 rs := by
  intro as
  induction as with
  | nil =>
    intro h next h2 n2 rs hcb _ hcopy
    simp only [dcopyList, Option.some.injEq, Prod.mk.injEq] at hcopy
    obtain ⟨rfl, rfl, rfl⟩ := hcopy
    exact ⟨le_refl next, fun x _ => rfl, hcb, hcb.segClosed_ge, by simp, rfl⟩
  | cons a as ih =>
    intro h next h2 n2 rs hcb hbound hcopy
    simp only [dcopyList] at hcopy
    split at hcopy
    · exact absurd hcopy (by simp)
    · rename_i h1 n1 r hd
      split at hcopy
      · exact absurd hcopy (by simp)
      · rename_i h2x n2x rsx hl
        simp only [Option.some.injEq, Prod.mk.injEq] at hcopy
        obtain ⟨rfl, rfl, rfl⟩ := hcopy
        obtain ⟨hn1, hr1, hr2, hag1, hcb1, hsg1, hden1, _⟩ := IH h next a h1 n1 r hcb hd
        have hbound1 : ∀ x ∈ as, x < n1 :=
          fun x hx => lt_of_lt_of_le (hbound x (List.mem_cons_of_mem a hx)) hn1
        obtain ⟨hn2, hag2, hcb2, hsg2, hbounds2, hden2⟩ :=
          ih h1 n1 h2x n2x rsx hcb1 hbound1 hl
        refine ⟨le_trans hn1 hn2, ?_, hcb2, ?_, ?_, ?_⟩
        · intro x hx
          rw [hag2 x (by omega), hag1 x hx]
        · exact segClosed_compose hn1 hag2 hsg1 hsg2
        · intro r' hr'
          rcases List.mem_cons.mp hr' with rfl | hr'
          · exact ⟨hr1, by omega⟩
          · obtain ⟨hb1, hb2⟩ := hbounds2 r' hr'
            exact ⟨by omega, hb2⟩
        · simp only [denoteList]
          have hdr : denote fuel h2x r = denote fuel h a := by
            have hstep : denote fuel h2x r = denote fuel h1 r :=
              denote_agree (fun x => x < n1) fuel h1 h2x r hcb1.segClosed_lt
                (fun x hx => hag2 x hx) hr2
            rw [hstep, hden1]
          have hdas : denoteList fuel h1 as = denoteList fuel h as :=
            (denoteList_congr fuel h h1 (fun x => x < next)
              (fun b hb => denote_agree (fun x => x < next) fuel h h1 b hcb.segClosed_lt
                (fun x hx => hag1 x hx) hb)).1 as
              (fun x hx => hbound x (List.mem_cons_of_mem a hx))
          rw [hdr, hden2, hdas]

theorem dcopyDict_spec_aux (fuel : Nat)
    (IH : ∀ (h : Heap) (next a : Nat) (h1 : Heap) (n1 r : Nat), ClosedBelow h next →
      dcopy fuel h next a = some (h1, n1, r) → DcopyEnsures fuel h next a h1 n1 r) :
    ∀ (kvs : List (String × Nat)) (h : Heap) (next : Nat) (h2 : Heap) (n2 : Nat)
      (rs : List (String × Nat)),
      ClosedBelow h next → (∀ p ∈ kvs, p.2 < next) →
      dcopyDict fuel h next kvs = some (h2, n2, rs) →
      DcopyDictEnsures fuel h next kvs h2 n2 rs := by
  intro kvs
  induction kvs with
  | nil =>
    intro h next h2 n2 rs hcb _ hcopy
    simp only [dcopyDict, Option.some.injEq, Prod.mk.injEq] at hcopy
    obtain ⟨rfl, rfl, rfl⟩ := hcopy
    exact ⟨le_refl next, fun x _ => rfl, hcb, hcb.segClosed_ge, by simp, rfl⟩
  | cons p kvs ih =>
    obtain ⟨k, a⟩ := p
    intro h next h2 n2 rs hcb hbound hcopy
    simp only [dcopyDict] at hcopy
    split at hcopy
    · exact absurd hcopy (by simp)
    · rename_i h1 n1 r hd
      split at hcopy
      · exact absurd hcopy (by simp)
      · rename_i h2x n2x rsx hl
        simp only [Option.some.injEq, Prod.mk.injEq] at hcopy
        obtain ⟨rfl, rfl, rfl⟩ := hcopy
        obtain ⟨hn1, hr1, hr2, hag1, hcb1, hsg1, hden1, _⟩ := IH h next a h1 n1 r hcb hd
        have hbound1 : ∀ q ∈ kvs, q.2 < n1 :=
          fun q hq => lt_of_lt_of_le (hbound q (List.mem_cons_of_mem _ hq)) hn1
        obtain ⟨hn2, hag2, hcb2, hsg2, hbounds2, hden2⟩ :=
          ih h1 n1 h2x n2x rsx hcb1 hbound1 hl
        refine ⟨le_trans hn1 hn2, ?_, hcb2, ?_, ?_, ?_⟩
        · intro x hx
          rw [hag2 x (by omega), hag1 x hx]
        · exact segClosed_compose hn1 hag2 hsg1 hsg2
        · intro q hq
          rcases List.mem_cons.mp hq with rfl | hq
          · exact ⟨hr1, by omega⟩
          · obtain ⟨hb1, hb2⟩ := hbounds2 q hq
            exact ⟨by omega, hb2⟩
        · simp only [denoteDict]
          have hdr : denote fuel h2x r = denote fuel h a := by
            have hstep : denote fuel h2x r = denote fuel h1 r :=
              denote_agree (fun x => x < n1) fuel h1 h2x r hcb1.segClosed_lt
                (fun x hx => hag2 x hx) hr2
            rw [hstep, hden1]
          have hdas : denoteDict fuel h1 kvs = denoteDict fuel h kvs :=
            (denoteList_congr fuel h h1 (fun x => x < next)
              (fun b hb => denote_agree (fun x => x < next) fuel h h1 b hcb.segClosed_lt
                (fun x hx => hag1 x hx) hb)).2 kvs
              (fun q hq => hbound q (List.mem_cons_of_mem _ hq))
          rw [hdr, hden2, hdas]

/-- Full correctness bundle for `dcopy`, by induction on the fuel. -/
theorem dcopy_spec :
    ∀ (fuel : Nat) (h : Heap) (next a : Nat) (h1 : Heap) (n1 r : Nat),
      ClosedBelow h next → dcopy fuel h next a = some (h1, n1, r) →
      DcopyEnsures fuel h next a h1 n1 r := by
  intro fuel
  induction fuel with
  | zero =>
    intro h next a h1 n1 r _ hcopy
    simp [dcopy] at hcopy
  | succ fuel ih =>
    intro h next a h1 n1 r hcb hcopy
    simp only [dcopy] at hcopy
    split at hcopy
    · exact absurd hcopy (by simp)
    · rename_i s hg
      obtain ⟨han, hptrs⟩ := closedBelow_hget hcb hg
      simp only [Option.some.injEq, Prod.mk.injEq] at hcopy
      obtain ⟨rfl, rfl, rfl⟩ := hcopy
      refine ⟨by omega, le_refl next, by omega, ?_, ?_, ?_, ?_, han⟩
      · intro x hx
        exact hget_hset_ne _ (by omega)
      · exact closedBelow_hset hcb (by omega) (by simp [HVal.ptrs])
      · exact segClosed_ge_hset hcb.segClosed_ge (by simp [HVal.ptrs])
      · simp only [denote, hget_hset_self, hg]
    · rename_i n hg
      obtain ⟨han, hptrs⟩ := closedBelow_hget hcb hg
      simp only [Option.some.injEq, Prod.mk.injEq] at hcopy
      obtain ⟨rfl, rfl, rfl⟩ := hcopy
      refine ⟨by omega, le_refl next, by omega, ?_, ?_, ?_, ?_, han⟩
      · intro x hx
        exact hget_hset_ne _ (by omega)
      · exact closedBelow_hset hcb (by omega) (by simp [HVal.ptrs])
      · exact segClosed_ge_hset hcb.segClosed_ge (by simp [HVal.ptrs])
      · simp only [denote, hget_hset_self, hg]
    · rename_i as hg
      obtain ⟨han, hptrs⟩ := closedBelow_hget hcb hg
      split at hcopy
      · exact absurd hcopy (by simp)
      · rename_i hL nL rsL hdl
        simp only [Option.some.injEq, Prod.mk.injEq] at hcopy
        obtain ⟨rfl, rfl, rfl⟩ := hcopy
        have hbound : ∀ x ∈ as, x < next :=
          fun x hx => hptrs x (by simpa [HVal.ptrs] using hx)
        obtain ⟨hnL, hagL, hcbL, hsgL, hboundsL, hdenL⟩ :=
          dcopyList_spec_aux fuel ih as h next hL nL rsL hcb hbound hdl
        refine ⟨by omega, hnL, by omega, ?_, ?_, ?_, ?_, han⟩
        · intro x hx
          rw [hget_hset_ne _ (by omega), hagL x hx]
        · refine closedBelow_hset hcbL (by omega) ?_
          intro b hb
          have := (hboundsL b (by simpa [HVal.ptrs] using hb)).2
          omega
        · refine segClosed_ge_hset hsgL ?_
          intro b hb
          exact (hboundsL b (by simpa [HVal.ptrs] using hb)).1
        · simp only [denote, hget_hset_self, hg]
          have hstep : denoteList fuel (hset hL nL (.hlist rsL)) rsL =
              denoteList fuel hL rsL :=
            (denoteList_congr fuel hL (hset hL nL (.hlist rsL)) (fun x => x < nL)
              (fun b hb => denote_agree (fun x => x < nL) fuel hL _ b hcbL.segClosed_lt
                (fun x hx => hget_hset_ne _ (by omega)) hb)).1 rsL
              (fun q hq => (hboundsL q hq).2)
          rw [hstep, hdenL]
    · rename_i kvs hg
      obtain ⟨han, hptrs⟩ := closedBelow_hget hcb hg
      split at hcopy
      · exact absurd hcopy (by simp)
      · rename_i hL nL rsL hdl
        simp only [Option.some.injEq, Prod.mk.injEq] at hcopy
        obtain ⟨rfl, rfl, rfl⟩ := hcopy
        have hbound : ∀ p ∈ kvs, p.2 < next := by
          intro p hp
          exact hptrs p.2 (by
            simp only [HVal.ptrs]
            exact List.mem_map_of_mem Prod.snd hp)
        obtain ⟨hnL, hagL, hcbL, hsgL, hboundsL, hdenL⟩ :=
          dcopyDict_spec_aux fuel ih kvs h next hL nL rsL hcb hbound hdl
        refine ⟨by omega, hnL, by omega, ?_, ?_, ?_, ?_, han⟩
        · intro x hx
          rw [hget_hset_ne _ (by omega), hagL x hx]
        · refine closedBelow_hset hcbL (by omega) ?_
          intro b hb
          simp only [HVal.ptrs] at hb
          obtain ⟨p, hp, rfl⟩ := List.mem_map.mp hb
          have := (hboundsL p hp).2
          omega
        · refine segClosed_ge_hset hsgL ?_
          intro b hb
          simp only [HVal.ptrs] at hb
          obtain ⟨p, hp, rfl⟩ := List.mem_map.mp hb
          exact (hboundsL p hp).1
        · simp only [denote, hget_hset_self, hg]
          have hstep : denoteDict fuel (hset hL nL (.hdict rsL)) rsL =
              denoteDict fuel hL rsL :=
            (denoteList_congr fuel hL (hset hL nL (.hdict rsL)) (fun x => x < nL)
              (fun b hb => denote_agree (fun x => x < nL) fuel hL _ b hcbL.segClosed_lt
                (fun x hx => hget_hset_ne _ (by omega)) hb)).2 rsL
              (fun q hq => (hboundsL q hq).2)
          rw [hstep, hdenL]

/-- What the heap-level constructor guarantees: both copies denote the input
document, the pre-existing heap is untouched, and the whole segment allocated
at or after construction points only into itself. -/
theorem constructOnHeap_spec {fuel : Nat} {h : Heap} {next a : Nat}
    {h2 : Heap} {n2 m o : Nat}
    (hcb : ClosedBelow h next)
    (hc : constructOnHeap fuel h next a = some (h2, n2, m, o)) :
    next ≤ m ∧ next ≤ o ∧ a < next ∧
    (∀ x, x < next → hget h2 x = hget h x) ∧
    SegClosed h2 (fun x => next ≤ x) ∧
    denote fuel h2 m = denote fuel h a ∧
    denote fuel h2 o = denote fuel h a := by
  unfold constructOnHeap at hc
  split at hc
  · exact absurd hc (by simp)
  · rename_i hA nA m' hd1
    split at hc
    · exact absurd hc (by simp)
    · rename_i h2x n2x o' hd2
      simp only [Option.some.injEq, Prod.mk.injEq] at hc
      obtain ⟨rfl, rfl, rfl, rfl⟩ := hc
      obtain ⟨hnA, hm1, hm2, hag1, hcbA, hsgA, hden1, han⟩ :=
        dcopy_spec fuel h next a hA nA m' hcb hd1
      obtain ⟨hn2, ho1, ho2, hag2, hcb2, hsg2, hden2, hanA⟩ :=
        dcopy_spec fuel hA nA a h2x n2x o' hcbA hd2
      refine ⟨hm1, by omega, han, ?_, ?_, ?_, ?_⟩
      · intro x hx
        rw [hag2 x (by omega), hag1 x hx]
      · exact segClosed_compose hnA hag2 hsgA hsg2
      · have hstep : denote fuel h2x m' = denote fuel hA m' :=
          denote_agree (fun x => x < nA) fuel hA h2x m' hcbA.segClosed_lt
            (fun x hx => hag2 x hx) hm2
        rw [hstep, hden1]
      · have hstep : denote fuel hA a = denote fuel h a :=
          denote_agree (fun x => x < next) fuel h hA a hcb.segClosed_lt
            (fun x hx => hag1 x hx) han
        rw [hden2, hstep]

/-- **C10**: `ModelWrapper.__init__` deep-copies the caller's input document
(once for the working model, once for the pristine original), so the wrapper
shares no mutable cell with the input.  Consequently (1) both copies denote
exactly the input document; (2) overwriting *any* pre-existing heap cell —
in particular any cell of the input document — never changes what the
wrapper's working model and pristine original denote, so no external mutation
of the input affects the wrapper's reads, `has_changes()` comparison or
`model_copy()`; and (3) overwriting any cell allocated at or after
construction — in particular every cell reachable through the wrapper's
copies, which all lie in that segment — is never visible in the input
document. -/
theorem c10_deepcopy_independence (fuel : Nat) (h : Heap) (next a : Nat)
    (h2 : Heap) (n2 m o : Nat) (d : Value)
    (hcb : ClosedBelow h next)
    (hc : constructOnHeap fuel h next a = some (h2, n2, m, o))
    (hd : denote fuel h a = some d) :
    (denote fuel h2 m = some d ∧ denote fuel h2 o = some d) ∧
    (∀ b v, b < next →
      denote fuel (hset h2 b v) m = some d ∧ denote fuel (hset h2 b v) o = some d) ∧
    (∀ b v, next ≤ b → denote fuel (hset h2 b v) a = some d) := by
  obtain ⟨hm, ho, han, hag, hsg, hdm, hdo⟩ := constructOnHeap_spec hcb hc
  have hsglow : SegClosed h2 (fun x => x < next) := by
    intro x c hg hx b hb
    rw [hag x hx] at hg
    exact (closedBelow_hget hcb hg).2 b hb
  have hda : denote fuel h2 a = some d := by
    have : denote fuel h2 a = denote fuel h a :=
      denote_agree (fun x => x < next) fuel h h2 a hcb.segClosed_lt
        (fun x hx => hag x hx) han
    rw [this, hd]
  refine ⟨⟨hdm.trans hd, hdo.trans hd⟩, ?_, ?_⟩
  · intro b v hb
    constructor
    · have : denote fuel (hset h2 b v) m = denote fuel h2 m :=
        denote_agree (fun x => next ≤ x) fuel h2 (hset h2 b v) m hsg
          (fun x hx => hget_hset_ne _ (by omega)) hm
      rw [this, hdm, hd]
    · have : denote fuel (hset h2 b v) o = denote fuel h2 o :=
        denote_agree (fun x => next ≤ x) fuel h2 (hset h2 b v) o hsg
          (fun x hx => hget_hset_ne _ (by omega)) ho
      rw [this, hdo, hd]
  · intro b v hb
    have : denote fuel (hset h2 b v) a = denote fuel h2 a :=
      denote_agree (fun x => x < next) fuel h2 (hset h2 b v) a hsglow
        (fun x hx => hget_hset_ne _ (by omega)) han
    rw [this, hda]

/-- A two-cell input heap: a document dictionary at address 0 whose single
value is the string cell at address 1. -/
def c10Heap : Heap :=
  [(0, .hdict [("resourceName", 1)]), (1, .hstr "people/w")]

/-- The heap after constructing the wrapper on `c10Heap`: the model copy at
address 3 (child 2) and the original copy at address 5 (child 4). -/
def c10HeapAfter : Heap :=
  [(5, .hdict [("resourceName", 4)]), (4, .hstr "people/w"),
   (3, .hdict [("resourceName", 2)]), (2, .hstr "people/w"),
   (0, .hdict [("resourceName", 1)]), (1, .hstr "people/w")]

theorem c10_deepcopy_independence_witness :
    (denote 3 c10HeapAfter 3 = some (.vdict [("resourceName", .vstr "people/w")]) ∧
     denote 3 c10HeapAfter 5 = some (.vdict [("resourceName", .vstr "people/w")])) ∧
    denote 3 (hset c10HeapAfter 1 (.hstr "mutated")) 3 =
      some (.vdict [("resourceName", .vstr "people/w")]) ∧
    denote 3 (hset c10HeapAfter 2 (.hstr "mutated")) 0 =
      some (.vdict [("resourceName", .vstr "people/w")]) := by
  have h := c10_deepcopy_independence 3 c10Heap 2 0 c10HeapAfter 6 3 5
    (.vdict [("resourceName", .vstr "people/w")]) (by decide)
    (by simp [constructOnHeap, dcopy, dcopyList, dcopyDict, c10Heap, c10HeapAfter, hget, hset])
    (by simp [denote, denoteList, denoteDict, c10Heap, hget])
  exact ⟨h.1, (h.2.1 1 (.hstr "mutated") (by omega)).1,
    h.2.2 2 (.hstr "mutated") (by omega)⟩

theorem c1_field_mask_gating_witness :
    modelField c1Wrapper .addresses = .error (.fieldNotInMask .addresses) ∧
    creationCallbackCheck c1Wrapper .addresses = .error (.fieldNotInMask .addresses) ∧
    modelField c1Wrapper .names = .ok none :=
  ⟨((c1_field_mask_gating c1Wrapper .addresses).1 (by decide)).1,
   ((c1_field_mask_gating c1Wrapper .addresses).1 (by decide)).2,
   (c1_field_mask_gating c1Wrapper .names).2 (by decide) (by rfl)⟩
